import Mathlib

/-!
Shallow embedding of the virtual-memory subsystem of the rCore-based kernel
(src/os/src/mm/page_table.rs and src/os/src/mm/memory_set.rs), together with
theorems about its mmap/munmap/translate behaviour.

Physical memory is modelled as a total function from physical page number and
entry index to raw page-table-entry bits (a never-written location reads 0,
i.e. an absent entry).  Machine integers are Nat with explicit truncation
where the source truncates (usize arithmetic in PageTableEntry::new, the
44-bit physical-page-number field of PageTableEntry::ppn).  A Rust panic
(assert!, unwrap) is modelled as the Option value none.
-/

/-- Machine state: physical memory (ppn, entry index ↦ raw PTE bits) together
with the frame pool's next free physical page number.  Modelled from the spec:
the frame allocator is an external collaborator that hands out exclusively
owned fresh frames and fails fatally on exhaustion. -/
structure Mach where
  mem : Nat → Nat → Nat
  next : Nat

/-- Read the raw bits of the page-table entry at index i of the table stored in
physical page p (source: PhysPageNum::get_pte_array followed by indexing). -/
def readPTE (m : Mach) (p i : Nat) : Nat := m.mem p i

/-- Write the raw bits of one page-table entry. -/
def writePTE (m : Mach) (p i v : Nat) : Mach :=
  ⟨fun q j => if q = p ∧ j = i then v else m.mem q j, m.next⟩

/-- Modelled from the spec: frame_alloc of the external frame pool.  Returns a
fresh, exclusively owned physical page, or none (exhaustion, fatal to the
caller).  The pool bound 2^44 is the width of the physical-page-number field
used by the source (PageTableEntry::ppn, PageTable::token). -/
def frameAlloc (m : Mach) : Option (Nat × Mach) :=
  if m.next < 2 ^ 44 then some (m.next, ⟨m.mem, m.next + 1⟩) else none

namespace PageTableEntry

/-- Source: PageTableEntry::new — bits = ppn << 10 | flags, as usize. -/
def new (ppn flags : Nat) : Nat := (ppn <<< 10 ||| flags) % 2 ^ 64

/-- Source: PageTableEntry::empty — bits = 0. -/
def empty : Nat := 0

/-- Source: PageTableEntry::ppn — bits >> 10 & ((1 << 44) - 1). -/
def ppn (bits : Nat) : Nat := (bits >>> 10) &&& (2 ^ 44 - 1)

/-- Source: PageTableEntry::flags — bits as u8 (PTEFlags covers all 8 bits, so
from_bits never fails). -/
def flags (bits : Nat) : Nat := bits % 256

/-- Source: PageTableEntry::is_valid — flags & V ≠ empty, V = bit 0. -/
def is_valid (bits : Nat) : Bool := flags bits &&& 1 ≠ 0

end PageTableEntry

/-- Modelled from the spec: the page-size constant (4096 bytes, 12-bit offset). -/
def PAGE_SIZE : Nat := 4096

/-- Modelled from the spec: VirtAddr::floor — address to page number, rounding
down (pure integer conversion). -/
def vaFloor (va : Nat) : Nat := va / PAGE_SIZE

/-- Modelled from the spec: VirtAddr::ceil — address to page number, rounding
up. -/
def vaCeil (va : Nat) : Nat := (va + PAGE_SIZE - 1) / PAGE_SIZE

/-- Modelled from the spec: VirtAddr::page_offset — low 12 bits. -/
def pageOffset (va : Nat) : Nat := va % PAGE_SIZE

/-- Modelled from the spec: the three 9-bit radix indices of a virtual page
number (standard 3-level Sv39 layout); level 0 is the root level. -/
def vpnIdx0 (vpn : Nat) : Nat := (vpn >>> 18) % 512

/-- Level-1 radix index of a virtual page number. -/
def vpnIdx1 (vpn : Nat) : Nat := (vpn >>> 9) % 512

/-- Level-2 (leaf) radix index of a virtual page number. -/
def vpnIdx2 (vpn : Nat) : Nat := vpn % 512

namespace PageTable

/-- Source: the loop body of PageTable::find_pte_create at a non-leaf level:
if the entry at (table p, index i) is absent, materialize it by allocating a
fresh frame (frame_alloc().unwrap(), panic = none on exhaustion) and writing a
Valid pointer entry; return the updated state and the next-level table ppn,
read back through PageTableEntry::ppn exactly as the source reads pte.ppn(). -/
def createStep (m : Mach) (p i : Nat) : Option (Mach × Nat) :=
  let e := readPTE m p i
  if PageTableEntry.is_valid e then some (m, PageTableEntry.ppn e)
  else
    match frameAlloc m with
    | none => none
    | some (f, m1) =>
        let v := PageTableEntry.new f 1
        some (writePTE m1 p i v, PageTableEntry.ppn v)

/-- Source: PageTable::find_pte_create, the two non-leaf iterations of its
loop followed by the leaf location. -/
def find_pte_create (m : Mach) (root vpn : Nat) : Option (Mach × Nat × Nat) :=
  match createStep m root (vpnIdx0 vpn) with
  | none => none
  | some (mA, p1) =>
      match createStep mA p1 (vpnIdx1 vpn) with
      | none => none
      | some (mB, p2) => some (mB, p2, vpnIdx2 vpn)

/-- Source: PageTable::find_pte.  Read-only three-level walk; returns the
location of the leaf entry, or none the moment a non-leaf entry is invalid.
The level-2 entry is returned without a validity check. -/
def find_pte (m : Mach) (root vpn : Nat) : Option (Nat × Nat) :=
  let e0 := readPTE m root (vpnIdx0 vpn)
  if PageTableEntry.is_valid e0 then
    let p1 := PageTableEntry.ppn e0
    let e1 := readPTE m p1 (vpnIdx1 vpn)
    if PageTableEntry.is_valid e1 then
      some (PageTableEntry.ppn e1, vpnIdx2 vpn)
    else none
  else none

/-- Source: PageTable::map.  Finds (creating intermediate tables) the leaf
entry, asserts it is not valid (an already-mapped vpn is a panic, modelled as
none), then writes ppn together with flags | V. -/
def map (m : Mach) (root vpn ppn flags : Nat) : Option Mach :=
  match find_pte_create m root vpn with
  | none => none
  | some (m1, p, i) =>
      if PageTableEntry.is_valid (readPTE m1 p i) then none
      else some (writePTE m1 p i (PageTableEntry.new ppn (flags ||| 1)))

/-- Source: PageTable::unmap.  find_pte(vpn).unwrap() (panic if the walk fails
at a non-leaf level), asserts the leaf entry is valid (panic otherwise), then
clears it to PageTableEntry::empty. -/
def unmap (m : Mach) (root vpn : Nat) : Option Mach :=
  match find_pte m root vpn with
  | none => none
  | some (p, i) =>
      if PageTableEntry.is_valid (readPTE m p i) then some (writePTE m p i 0)
      else none

/-- Source: PageTable::translate — copies out the leaf entry found by
find_pte (its raw bits), valid or not. -/
def translate (m : Mach) (root vpn : Nat) : Option Nat :=
  (find_pte m root vpn).map fun pi => readPTE m pi.1 pi.2

end PageTable

/-- Source: MapType — identical or framed mapping strategy. -/
inductive MapType where
  | Identical : MapType
  | Framed : MapType
deriving DecidableEq

/-- Frame map of a region, modelling alloc::collections::BTreeMap by its
get/insert/remove behaviour (virtual page number ↦ owned frame ppn). -/
def dfLookup (l : List (Nat × Nat)) (k : Nat) : Option Nat :=
  (l.find? fun kv => kv.1 = k).map fun kv => kv.2

/-- BTreeMap::insert on the frame map. -/
def dfInsert (l : List (Nat × Nat)) (k v : Nat) : List (Nat × Nat) :=
  (k, v) :: l.filter fun kv => kv.1 ≠ k

/-- BTreeMap::remove on the frame map. -/
def dfRemove (l : List (Nat × Nat)) (k : Nat) : List (Nat × Nat) :=
  l.filter fun kv => kv.1 ≠ k

/-- Source: MapArea — one contiguous virtual region: page range [vpnStart,
vpnEnd), owned data frames, mapping type, permission bits (MapPermission,
R = bit 1, W = bit 2, X = bit 3, U = bit 4, sharing positions with PTEFlags). -/
structure MapArea where
  vpnStart : Nat
  vpnEnd : Nat
  dataFrames : List (Nat × Nat)
  mapType : MapType
  mapPerm : Nat

/-- Source: MapArea::new — stores floor(start_va) and ceil(end_va), no frames. -/
def MapArea.new (startVa endVa : Nat) (ty : MapType) (perm : Nat) : MapArea :=
  ⟨vaFloor startVa, vaCeil endVa, [], ty, perm⟩

/-- Source: MapArea::map_one.  Identical: ppn = vpn.  Framed: allocate a frame
(frame_alloc().unwrap(), panic on exhaustion), record it in data_frames, and
map it.  pte_flags = PTEFlags::from_bits(map_perm.bits) (map_perm only uses
bits 1-4, all of which PTEFlags defines, so from_bits succeeds). -/
def MapArea.map_one (m : Mach) (a : MapArea) (root vpn : Nat) :
    Option (Mach × MapArea) :=
  match a.mapType with
  | MapType.Identical =>
      (PageTable.map m root vpn vpn a.mapPerm).map fun m' => (m', a)
  | MapType.Framed =>
      match frameAlloc m with
      | none => none
      | some (f, m1) =>
          let a' := { a with dataFrames := dfInsert a.dataFrames vpn f }
          (PageTable.map m1 root vpn f a.mapPerm).map fun m' => (m', a')

/-- List of virtual page numbers s, s+1, ..., e-1 (a Rust s..e loop). -/
def rangeList (s e : Nat) : List Nat := (List.range (e - s)).map fun k => s + k

/-- Source: MapArea::map — map_one for every vpn in the region's range. -/
def MapArea.mapRange (m : Mach) (root : Nat) (a : MapArea) :
    List Nat → Option (Mach × MapArea)
  | [] => some (m, a)
  | v :: vs =>
      match a.map_one m root v with
      | none => none
      | some (m', a') => MapArea.mapRange m' root a' vs

/-- Source: MapArea::unmap_one — for a Framed area, remove the frame from
data_frames (releasing it), then PageTable::unmap. -/
def MapArea.unmap_one (m : Mach) (a : MapArea) (root vpn : Nat) :
    Option (Mach × MapArea) :=
  let a' :=
    if a.mapType = MapType.Framed then
      { a with dataFrames := dfRemove a.dataFrames vpn }
    else a
  (PageTable.unmap m root vpn).map fun m' => (m', a')

/-- Source: MemorySet — one page table (its root frame ppn) plus the region
list. -/
structure MemorySet where
  root : Nat
  areas : List MapArea

/-- Source: MemorySet::push for an area without data: establish the mapping of
every page of the area, then append the area to the region list. -/
def MemorySet.push (m : Mach) (ms : MemorySet) (a : MapArea) :
    Option (Mach × MemorySet) :=
  (MapArea.mapRange m ms.root a (rangeList a.vpnStart a.vpnEnd)).map
    fun p => (p.1, ⟨ms.root, ms.areas ++ [p.2]⟩)

/-- Source: MemorySet::insert_framed_area. -/
def MemorySet.insert_framed_area (m : Mach) (ms : MemorySet)
    (startVa endVa perm : Nat) : Option (Mach × MemorySet) :=
  MemorySet.push m ms (MapArea.new startVa endVa MapType.Framed perm)

/-- The MapPermission value built by mmap: (port as u8) << 1 passed through
MapPermission::from_bits (defined bits are 0b11110; unwrap panics otherwise),
then U (bit 4) forced on. -/
def mkPermission (port : Nat) : Option Nat :=
  let x := (port % 256) <<< 1 % 256
  if x &&& 0b11110 = x then some (x ||| 16) else none

/-- Source: MemorySet::mmap.  Clamps len up to one page, computes the aligned
page range, then fails (-1) on a misaligned start, on port bits outside the
low 3, on an all-zero low-3 port, or on any page of the range already holding
an owned frame in any existing area's data_frames; otherwise inserts a new
Framed region over the range with permission (port << 1) | U and returns 0.
The result carries the final machine state and memory set; none is a panic
(frame-pool exhaustion during establishment). -/
def MemorySet.mmap (m : Mach) (ms : MemorySet) (start len port : Nat) :
    Option (Int × Mach × MemorySet) :=
  let len' := if len < 4096 then 4096 else len
  let startVpn := vaFloor start
  let endVpn := vaCeil (start + len')
  if pageOffset start ≠ 0 then some (-1, m, ms)
  else if port &&& 0xfffffffffffffff8 ≠ 0 then some (-1, m, ms)
  else if port &&& 0x7 = 0 then some (-1, m, ms)
  else if (rangeList startVpn endVpn).any
      (fun vpn => ms.areas.any fun a => (dfLookup a.dataFrames vpn).isSome) then
    some (-1, m, ms)
  else
    match mkPermission port with
    | none => none
    | some perm =>
        match MemorySet.insert_framed_area m ms start (endVpn * PAGE_SIZE) perm with
        | none => none
        | some (m', ms') => some (0, m', ms')

/-- One step of the munmap loop: scan the area list in order for the first
area whose data_frames owns vpn and unmap that single page there.  notFound
models the unmap_success = false path, panic a panic inside unmap_one. -/
inductive UnmapStep where
  | notFound : UnmapStep
  | panic : UnmapStep
  | ok : Mach → List MapArea → UnmapStep

/-- Scan of MemorySet::munmap's inner for-loop over the areas. -/
def unmapFirst (m : Mach) (root : Nat) : List MapArea → Nat → UnmapStep
  | [], _ => UnmapStep.notFound
  | a :: rest, vpn =>
      if (dfLookup a.dataFrames vpn).isSome then
        match MapArea.unmap_one m a root vpn with
        | none => UnmapStep.panic
        | some (m', a') => UnmapStep.ok m' (a' :: rest)
      else
        match unmapFirst m root rest vpn with
        | UnmapStep.notFound => UnmapStep.notFound
        | UnmapStep.panic => UnmapStep.panic
        | UnmapStep.ok m' rest' => UnmapStep.ok m' (a :: rest')

/-- The outer for-loop of MemorySet::munmap over the page range: unmap each
page at the first owning area; return -1 the moment no area owns the page. -/
def munmapLoop (m : Mach) (ms : MemorySet) :
    List Nat → Option (Int × Mach × MemorySet)
  | [] => some (0, m, ms)
  | v :: vs =>
      match unmapFirst m ms.root ms.areas v with
      | UnmapStep.notFound => some (-1, m, ms)
      | UnmapStep.panic => none
      | UnmapStep.ok m' areas' => munmapLoop m' ⟨ms.root, areas'⟩ vs

/-- Source: MemorySet::munmap.  Clamps len up to one page, walks the pages of
[floor(start), ceil(start + len')) in increasing order; no alignment check. -/
def MemorySet.munmap (m : Mach) (ms : MemorySet) (start len : Nat) :
    Option (Int × Mach × MemorySet) :=
  let len' := if len < 4096 then 4096 else len
  munmapLoop m ms (rangeList (vaFloor start) (vaCeil (start + len')))

/-- Result code of an mmap call (0 or -1), none on panic. -/
def mmapCode (m : Mach) (ms : MemorySet) (start len port : Nat) : Option Int :=
  (MemorySet.mmap m ms start len port).map fun r => r.1

/-- Machine state and memory set after an mmap call (the inputs themselves if
the call panicked). -/
def mmapSt (m : Mach) (ms : MemorySet) (start len port : Nat) :
    Mach × MemorySet :=
  match MemorySet.mmap m ms start len port with
  | some (_, m', ms') => (m', ms')
  | none => (m, ms)

/-- Result code of a munmap call (0 or -1), none on panic. -/
def munmapCode (m : Mach) (ms : MemorySet) (start len : Nat) : Option Int :=
  (MemorySet.munmap m ms start len).map fun r => r.1

/-- Machine state and memory set after a munmap call. -/
def munmapSt (m : Mach) (ms : MemorySet) (start len : Nat) :
    Mach × MemorySet :=
  match MemorySet.munmap m ms start len with
  | some (_, m', ms') => (m', ms')
  | none => (m, ms)

/-- A page translates to a Valid leaf entry (callers must check the Valid bit,
not merely Option presence). -/
def validTranslate (m : Mach) (root vpn : Nat) : Bool :=
  match PageTable.translate m root vpn with
  | some e => PageTableEntry.is_valid e
  | none => false

/-- Some area of the memory set owns a frame for this virtual page. -/
def owned (ms : MemorySet) (vpn : Nat) : Bool :=
  ms.areas.any fun a => (dfLookup a.dataFrames vpn).isSome

/-- The frame-presence overlap condition tested by mmap: some page of
[s, e) has an owned frame recorded in some existing area's data_frames. -/
def frameOverlap (ms : MemorySet) (s e : Nat) : Bool :=
  (rangeList s e).any fun vpn =>
    ms.areas.any fun a => (dfLookup a.dataFrames vpn).isSome

/-- Both non-leaf entries of the three-level walk of vpn are valid. -/
def walkIntermediatesValid (m : Mach) (root vpn : Nat) : Bool :=
  PageTableEntry.is_valid (readPTE m root (vpnIdx0 vpn)) &&
    PageTableEntry.is_valid
      (readPTE m (PageTableEntry.ppn (readPTE m root (vpnIdx0 vpn))) (vpnIdx1 vpn))

/-- Source: translated_byte_buffer's while loop.  A view into physical memory
is modelled as a triple (ppn, start offset, end position) of the slice taken
from that page's byte array; the source's branch on end_va.page_offset() == 0
pushes the suffix slice [offset..], i.e. end position 4096.  The fuel argument
bounds the iteration count; the wrapper supplies enough fuel for the loop to
always run to completion.  none models the panic of translate(vpn).unwrap()
on an unmapped page. -/
def tbbLoop (m : Mach) (root : Nat) : Nat → Nat → Nat → Option (List (Nat × Nat × Nat))
  | 0, _, _ => none
  | fuel + 1, start, stop =>
      if start < stop then
        match PageTable.translate m root (vaFloor start) with
        | none => none
        | some e =>
            match tbbLoop m root fuel (min ((vaFloor start + 1) * PAGE_SIZE) stop) stop with
            | none => none
            | some vs => some
                ((if pageOffset (min ((vaFloor start + 1) * PAGE_SIZE) stop) = 0 then
                    (PageTableEntry.ppn e, pageOffset start, PAGE_SIZE)
                  else
                    (PageTableEntry.ppn e, pageOffset start,
                      pageOffset (min ((vaFloor start + 1) * PAGE_SIZE) stop))) :: vs)
      else some []

/-- Source: translated_byte_buffer — builds a non-owning view of the foreign
table from the token (PageTable::from_token keeps the low 44 bits as the root
ppn) and walks the byte range [ptr, ptr + len) page by page. -/
def translated_byte_buffer (m : Mach) (token : Nat) (ptr len : Nat) :
    Option (List (Nat × Nat × Nat)) :=
  tbbLoop m (token &&& (2 ^ 44 - 1)) (len + 1) ptr (ptr + len)

/-- Modelled from the spec: the fixed trampoline virtual address (the highest
page, usize::MAX - PAGE_SIZE + 1; the source's own comment records the value
fffffffffffff000). -/
def TRAMPOLINE : Nat := 2 ^ 64 - 4096

/-- Source: MemorySet::new_bare / PageTable::new — allocate the root table
frame (frame_alloc().unwrap(), panic on exhaustion), no areas. -/
def MemorySet.new_bare (m : Mach) : Option (Mach × MemorySet) :=
  (frameAlloc m).map fun fm => (fm.2, ⟨fm.1, []⟩)

/-- Source: MemorySet::map_trampoline — map the trampoline page (outside the
area list) to the physical page of strampoline with flags R | X. -/
def MemorySet.map_trampoline (m : Mach) (ms : MemorySet) (strampoline : Nat) :
    Option Mach :=
  PageTable.map m ms.root (vaFloor TRAMPOLINE) (vaFloor strampoline) 0b1010

/-- The four ELF magic bytes checked by MemorySet::from_elf. -/
def ELF_MAGIC : List Nat := [0x7f, 0x45, 0x4c, 0x46]

/-- Source: the prefix of MemorySet::from_elf up to and including the ELF
magic assertion: new_bare, map_trampoline, then
assert_eq!(magic, [0x7f, 0x45, 0x4c, 0x46]).  Returns the machine and
memory-set state as they are at the assertion point, together with the result
of the magic comparison (false means the assertion panics there); the
segment/stack/trap-context mapping that follows a successful assertion is
beyond the claims about this prefix and not modelled.  none is a panic before
the assertion is reached (frame-pool exhaustion). -/
def MemorySet.from_elf_magic_stage (m : Mach) (strampoline : Nat)
    (elfData : List Nat) : Option ((Mach × MemorySet) × Bool) :=
  match MemorySet.new_bare m with
  | none => none
  | some (m1, ms) =>
      match MemorySet.map_trampoline m1 ms strampoline with
      | none => none
      | some m2 => some ((m2, ms), elfData.take 4 == ELF_MAGIC)

/-- T is a level-1 table of the radix tree: some valid root entry points to
it. -/
def lvl1 (m : Mach) (root T : Nat) : Prop :=
  ∃ i, i < 512 ∧ PageTableEntry.is_valid (readPTE m root i) = true ∧
    PageTableEntry.ppn (readPTE m root i) = T

/-- T is a level-2 (leaf) table of the radix tree: reachable from the root in
two valid steps. -/
def lvl2 (m : Mach) (root T : Nat) : Prop :=
  ∃ T1, lvl1 m root T1 ∧ ∃ i, i < 512 ∧
    PageTableEntry.is_valid (readPTE m T1 i) = true ∧
    PageTableEntry.ppn (readPTE m T1 i) = T

/-- Well-formedness of a machine state with respect to a page-table root:
the root and every table frame lie below the allocation frontier, frames at
or above the frontier are untouched (the pool hands out clean frames), table
pointers stay below the frontier, and the tree levels do not alias: no
level-2 table doubles as the root or as a level-1 table, and the root is not
its own level-1 table.  The kernel establishes these properties by
construction (every table frame comes fresh from the pool exactly when a
walk materializes it). -/
structure WF (m : Mach) (root : Nat) : Prop where
  rootLt : root < m.next
  fresh : ∀ p i, m.next ≤ p → m.mem p i = 0
  closed1 : ∀ i, i < 512 → PageTableEntry.is_valid (readPTE m root i) = true →
    PageTableEntry.ppn (readPTE m root i) < m.next
  closed2 : ∀ T, lvl1 m root T → ∀ i, i < 512 →
    PageTableEntry.is_valid (readPTE m T i) = true →
    PageTableEntry.ppn (readPTE m T i) < m.next
  rootNot1 : ¬ lvl1 m root root
  disj12 : ∀ T, lvl2 m root T → ¬ lvl1 m root T ∧ T ≠ root

/-- The magic-comparison outcome of the from_elf prefix (none = earlier
panic). -/
def fromElfStageSnd (m : Mach) (strampoline : Nat) (elfData : List Nat) :
    Option Bool :=
  (MemorySet.from_elf_magic_stage m strampoline elfData).map fun st => st.2

/-- The machine and memory-set state of the from_elf prefix at the magic
assertion (a dummy pair if the prefix panicked earlier). -/
def fromElfStageSt (m : Mach) (strampoline : Nat) (elfData : List Nat) :
    Mach × MemorySet :=
  match MemorySet.from_elf_magic_stage m strampoline elfData with
  | some (st, _) => st
  | none => (m, ⟨0, []⟩)

/-- State projection of PageTable::unmap (the input state if it panicked). -/
def ptUnmapSt (m : Mach) (root vpn : Nat) : Mach :=
  match PageTable.unmap m root vpn with
  | some m2 => m2
  | none => m

/-- Concrete machine fixture: zeroed physical memory whose frame 0 is the
already-allocated root table. -/
def mW : Mach := ⟨fun _ _ => 0, 1⟩

/-- Concrete memory-set fixture: root table in frame 0, no areas. -/
def msW : MemorySet := ⟨0, []⟩

/-! ### Basic arithmetic facts about entries, indices and ranges -/

theorem vpnIdx0_lt (vpn : Nat) : vpnIdx0 vpn < 512 := Nat.mod_lt _ (by omega)

theorem vpnIdx1_lt (vpn : Nat) : vpnIdx1 vpn < 512 := Nat.mod_lt _ (by omega)

theorem vpnIdx2_lt (vpn : Nat) : vpnIdx2 vpn < 512 := Nat.mod_lt _ (by omega)

theorem PageTableEntry.is_valid_eq_testBit (b : Nat) :
    PageTableEntry.is_valid b = b.testBit 0 := by
  simp only [PageTableEntry.is_valid, PageTableEntry.flags, Nat.and_one_is_mod,
    Nat.testBit_to_div_mod, pow_zero, Nat.div_one, ne_eq, decide_eq_decide]
  omega

theorem PageTableEntry.testBit_new_lt (p f i : Nat) (hi : i < 10) :
    (PageTableEntry.new p f).testBit i = f.testBit i := by
  simp only [PageTableEntry.new, Nat.testBit_mod_two_pow, Nat.testBit_lor,
    Nat.testBit_shiftLeft]
  have h1 : decide (i < 64) = true := by simp; omega
  have h2 : decide (i ≥ 10) = false := by simp; omega
  simp [h1, h2]

theorem PageTableEntry.is_valid_new (p f : Nat) :
    PageTableEntry.is_valid (PageTableEntry.new p f) = f.testBit 0 := by
  rw [PageTableEntry.is_valid_eq_testBit, PageTableEntry.testBit_new_lt]
  omega

theorem PageTableEntry.testBit_lor_one_zero (f : Nat) : (f ||| 1).testBit 0 = true := by
  simp [Nat.testBit_lor]

theorem PageTableEntry.is_valid_new_or_one (p f : Nat) :
    PageTableEntry.is_valid (PageTableEntry.new p (f ||| 1)) = true := by
  rw [PageTableEntry.is_valid_new, PageTableEntry.testBit_lor_one_zero]

theorem PageTableEntry.new_eq_of_lt (p f : Nat) (hp : p < 2 ^ 54) (hf : f < 1024) :
    PageTableEntry.new p f = p * 1024 + f := by
  have hor : p <<< 10 ||| f = p * 1024 + f := by
    apply Nat.eq_of_testBit_eq
    intro i
    rw [Nat.testBit_lor, Nat.testBit_shiftLeft]
    have h1024 : p * 1024 + f = 2 ^ 10 * p + f := by ring_nf
    rw [h1024, Nat.testBit_mul_pow_two_add _ (by omega)]
    by_cases hi : i < 10
    · have h2 : decide (i ≥ 10) = false := by simp; omega
      simp [h2, hi]
    · have h2 : decide (i ≥ 10) = true := by simp; omega
      have h3 : f.testBit i = false := by
        apply Nat.testBit_lt_two_pow
        calc f < 1024 := hf
        _ ≤ 2 ^ i := by
            have : (10 : Nat) ≤ i := by omega
            calc (1024 : Nat) = 2 ^ 10 := by norm_num
            _ ≤ 2 ^ i := Nat.pow_le_pow_right (by omega) this
      simp [h2, h3, hi]
  rw [PageTableEntry.new, hor, Nat.mod_eq_of_lt]
  have : p * 1024 ≤ (2 ^ 54 - 1) * 1024 := by
    apply Nat.mul_le_mul_right
    omega
  calc p * 1024 + f < p * 1024 + 1024 := by omega
  _ ≤ (2 ^ 54 - 1) * 1024 + 1024 := by omega
  _ ≤ 2 ^ 64 := by norm_num

theorem PageTableEntry.ppn_new_of_lt (p f : Nat) (hp : p < 2 ^ 44) (hf : f < 1024) :
    PageTableEntry.ppn (PageTableEntry.new p f) = p := by
  rw [PageTableEntry.new_eq_of_lt p f (by calc p < 2 ^ 44 := hp
        _ ≤ 2 ^ 54 := Nat.pow_le_pow_right (by omega) (by omega)) hf]
  rw [PageTableEntry.ppn, Nat.shiftRight_eq_div_pow, Nat.and_pow_two_sub_one_eq_mod]
  have h1 : (p * 1024 + f) / 2 ^ 10 = p := by
    rw [show (2 : Nat) ^ 10 = 1024 by norm_num]
    omega
  rw [h1, Nat.mod_eq_of_lt hp]

theorem readPTE_writePTE (m : Mach) (p i v q j : Nat) :
    readPTE (writePTE m p i v) q j = if q = p ∧ j = i then v else readPTE m q j := rfl

theorem writePTE_next (m : Mach) (p i v : Nat) : (writePTE m p i v).next = m.next := rfl

theorem frameAlloc_some (m : Mach) (f : Nat) (m1 : Mach)
    (h : frameAlloc m = some (f, m1)) :
    f = m.next ∧ m.next < 2 ^ 44 ∧ m1.mem = m.mem ∧ m1.next = m.next + 1 := by
  unfold frameAlloc at h
  split at h
  · simp only [Option.some.injEq, Prod.mk.injEq] at h
    obtain ⟨h1, h2⟩ := h
    subst h1
    subst h2
    exact ⟨rfl, by assumption, rfl, rfl⟩
  · exact absurd h (by simp)

/-! ### Frame-map (BTreeMap) lemmas -/

theorem find?_filter_ne (t : List (Nat × Nat)) (k w : Nat) (hw : w ≠ k) :
    ((t.filter fun kv => kv.1 ≠ k).find? fun kv => kv.1 = w) =
      t.find? fun kv => kv.1 = w := by
  induction t with
  | nil => rfl
  | cons a t ih =>
    by_cases ha : a.1 = k
    · rw [List.filter_cons_of_neg (by simp [ha])]
      rw [ih, List.find?_cons_of_neg]
      simp only [decide_eq_true_eq]
      omega
    · rw [List.filter_cons_of_pos (by simp [ha])]
      by_cases haw : a.1 = w
      · rw [List.find?_cons_of_pos _ (by simp [haw]),
          List.find?_cons_of_pos _ (by simp [haw])]
      · rw [List.find?_cons_of_neg _ (by simp [haw]),
          List.find?_cons_of_neg _ (by simp [haw]), ih]

theorem find?_filter_self (t : List (Nat × Nat)) (k : Nat) :
    ((t.filter fun kv => kv.1 ≠ k).find? fun kv => kv.1 = k) = none := by
  rw [List.find?_eq_none]
  intro x hx
  rw [List.mem_filter] at hx
  simpa using hx.2

theorem dfLookup_insert (l : List (Nat × Nat)) (k v w : Nat) :
    dfLookup (dfInsert l k v) w = if w = k then some v else dfLookup l w := by
  unfold dfLookup dfInsert
  by_cases hw : w = k
  · subst hw
    rw [List.find?_cons_of_pos _ (by simp)]
    simp
  · rw [List.find?_cons_of_neg _ (by simp; omega), if_neg hw,
      find?_filter_ne _ _ _ hw]

theorem dfLookup_remove (l : List (Nat × Nat)) (k w : Nat) :
    dfLookup (dfRemove l k) w = if w = k then none else dfLookup l w := by
  unfold dfLookup dfRemove
  by_cases hw : w = k
  · subst hw
    rw [find?_filter_self, if_pos rfl]
    rfl
  · rw [if_neg hw, find?_filter_ne _ _ _ hw]

/-! ### Range-list lemmas -/

theorem mem_rangeList (s e v : Nat) : v ∈ rangeList s e ↔ s ≤ v ∧ v < e := by
  unfold rangeList
  simp only [List.mem_map, List.mem_range]
  constructor
  · rintro ⟨k, hk, rfl⟩
    omega
  · rintro ⟨h1, h2⟩
    exact ⟨v - s, by omega, by omega⟩

theorem rangeList_pairwise (s e : Nat) : (rangeList s e).Pairwise (· < ·) := by
  unfold rangeList
  exact List.Pairwise.map _ (fun a b (h : a < b) => by omega)
    (List.pairwise_lt_range _)

/-! ### Walk lemmas for find_pte / translate -/

theorem PageTableEntry.is_valid_zero : PageTableEntry.is_valid 0 = false := by decide

theorem PageTable.find_pte_some (m : Mach) (root vpn P I : Nat)
    (h : PageTable.find_pte m root vpn = some (P, I)) :
    PageTableEntry.is_valid (readPTE m root (vpnIdx0 vpn)) = true ∧
    PageTableEntry.is_valid
      (readPTE m (PageTableEntry.ppn (readPTE m root (vpnIdx0 vpn))) (vpnIdx1 vpn)) = true ∧
    P = PageTableEntry.ppn
      (readPTE m (PageTableEntry.ppn (readPTE m root (vpnIdx0 vpn))) (vpnIdx1 vpn)) ∧
    I = vpnIdx2 vpn := by
  unfold PageTable.find_pte at h
  by_cases h0 : PageTableEntry.is_valid (readPTE m root (vpnIdx0 vpn))
  · rw [if_pos h0] at h
    by_cases h1 : PageTableEntry.is_valid
        (readPTE m (PageTableEntry.ppn (readPTE m root (vpnIdx0 vpn))) (vpnIdx1 vpn))
    · rw [if_pos h1] at h
      simp only [Option.some.injEq, Prod.mk.injEq] at h
      exact ⟨h0, h1, h.1.symm, h.2.symm⟩
    · rw [if_neg h1] at h
      exact absurd h (by simp)
  · rw [if_neg h0] at h
    exact absurd h (by simp)

theorem PageTable.find_pte_eq (m : Mach) (root vpn : Nat)
    (h0 : PageTableEntry.is_valid (readPTE m root (vpnIdx0 vpn)) = true)
    (h1 : PageTableEntry.is_valid
      (readPTE m (PageTableEntry.ppn (readPTE m root (vpnIdx0 vpn))) (vpnIdx1 vpn)) = true) :
    PageTable.find_pte m root vpn =
      some (PageTableEntry.ppn
        (readPTE m (PageTableEntry.ppn (readPTE m root (vpnIdx0 vpn))) (vpnIdx1 vpn)),
        vpnIdx2 vpn) := by
  unfold PageTable.find_pte
  rw [if_pos h0, if_pos h1]

theorem PageTable.find_pte_none_iff (m : Mach) (root vpn : Nat) :
    PageTable.find_pte m root vpn = none ↔ walkIntermediatesValid m root vpn = false := by
  unfold PageTable.find_pte walkIntermediatesValid
  by_cases h0 : PageTableEntry.is_valid (readPTE m root (vpnIdx0 vpn)) = true
  · by_cases h1 : PageTableEntry.is_valid
        (readPTE m (PageTableEntry.ppn (readPTE m root (vpnIdx0 vpn))) (vpnIdx1 vpn)) = true
    · rw [if_pos h0, if_pos h1]
      simp [h0, h1]
    · rw [if_pos h0, if_neg h1]
      rw [Bool.not_eq_true] at h1
      simp [h0, h1]
  · rw [if_neg h0]
    rw [Bool.not_eq_true] at h0
    simp [h0]

theorem PageTable.translate_none_iff (m : Mach) (root vpn : Nat) :
    PageTable.translate m root vpn = none ↔ walkIntermediatesValid m root vpn = false := by
  rw [← PageTable.find_pte_none_iff]
  unfold PageTable.translate
  cases PageTable.find_pte m root vpn <;> simp

theorem PageTable.find_pte_pres (m m' : Mach) (root vpn : Nat)
    (hpres : ∀ q j, PageTableEntry.is_valid (readPTE m q j) = true →
      readPTE m' q j = readPTE m q j)
    (P I : Nat) (hfp : PageTable.find_pte m root vpn = some (P, I))
    (hv : PageTableEntry.is_valid (readPTE m P I) = true) :
    PageTable.find_pte m' root vpn = some (P, I) ∧ readPTE m' P I = readPTE m P I := by
  obtain ⟨h0, h1, hP, hI⟩ := PageTable.find_pte_some m root vpn P I hfp
  have e0eq : readPTE m' root (vpnIdx0 vpn) = readPTE m root (vpnIdx0 vpn) :=
    hpres _ _ h0
  have e1eq : readPTE m' (PageTableEntry.ppn (readPTE m root (vpnIdx0 vpn))) (vpnIdx1 vpn)
      = readPTE m (PageTableEntry.ppn (readPTE m root (vpnIdx0 vpn))) (vpnIdx1 vpn) :=
    hpres _ _ h1
  constructor
  · rw [PageTable.find_pte_eq m' root vpn (by rw [e0eq]; exact h0)
      (by rw [e0eq, e1eq]; exact h1)]
    rw [e0eq, e1eq, ← hP, ← hI]
  · exact hpres _ _ hv

theorem PageTable.translate_pres (m m' : Mach) (root vpn : Nat)
    (hpres : ∀ q j, PageTableEntry.is_valid (readPTE m q j) = true →
      readPTE m' q j = readPTE m q j)
    (b : Nat) (ht : PageTable.translate m root vpn = some b)
    (hv : PageTableEntry.is_valid b = true) :
    PageTable.translate m' root vpn = some b ∧
      PageTable.find_pte m' root vpn = PageTable.find_pte m root vpn := by
  unfold PageTable.translate at ht
  cases hfp : PageTable.find_pte m root vpn with
  | none => rw [hfp] at ht; exact absurd ht (by simp)
  | some pi =>
    obtain ⟨P, I⟩ := pi
    rw [hfp] at ht
    simp only [Option.map_some'] at ht
    have hb : readPTE m P I = b := by injection ht
    have hv' : PageTableEntry.is_valid (readPTE m P I) = true := by rw [hb]; exact hv
    obtain ⟨hfp', hval'⟩ := PageTable.find_pte_pres m m' root vpn hpres P I hfp hv'
    refine ⟨?_, hfp'⟩
    unfold PageTable.translate
    rw [hfp']
    simp only [Option.map_some']
    rw [hval', hb]

theorem validTranslate_write_zero (m : Mach) (P I root w : Nat)
    (h : validTranslate (writePTE m P I 0) root w = true) :
    validTranslate m root w = true := by
  unfold validTranslate at h ⊢
  cases hfp' : PageTable.find_pte (writePTE m P I 0) root w with
  | none =>
    unfold PageTable.translate at h
    rw [hfp'] at h
    simp at h
  | some pi =>
    obtain ⟨Q, J⟩ := pi
    unfold PageTable.translate at h
    rw [hfp'] at h
    simp only [Option.map_some'] at h
    obtain ⟨h0', h1', hQ, hJ⟩ := PageTable.find_pte_some _ root w Q J hfp'
    have hRootNe : ¬(root = P ∧ vpnIdx0 w = I) := by
      intro hcon
      rw [readPTE_writePTE, if_pos hcon, PageTableEntry.is_valid_zero] at h0'
      exact absurd h0' (by simp)
    have e0eq : readPTE (writePTE m P I 0) root (vpnIdx0 w) = readPTE m root (vpnIdx0 w) := by
      rw [readPTE_writePTE, if_neg hRootNe]
    rw [e0eq] at h0' h1' hQ
    have hP1Ne : ¬(PageTableEntry.ppn (readPTE m root (vpnIdx0 w)) = P ∧ vpnIdx1 w = I) := by
      intro hcon
      rw [readPTE_writePTE, if_pos hcon, PageTableEntry.is_valid_zero] at h1'
      exact absurd h1' (by simp)
    have e1eq : readPTE (writePTE m P I 0)
        (PageTableEntry.ppn (readPTE m root (vpnIdx0 w))) (vpnIdx1 w)
        = readPTE m (PageTableEntry.ppn (readPTE m root (vpnIdx0 w))) (vpnIdx1 w) := by
      rw [readPTE_writePTE, if_neg hP1Ne]
    rw [e1eq] at h1' hQ
    have hLeafNe : ¬(Q = P ∧ J = I) := by
      intro hcon
      rw [readPTE_writePTE, if_pos hcon, PageTableEntry.is_valid_zero] at h
      exact absurd h (by simp)
    rw [readPTE_writePTE, if_neg hLeafNe] at h
    have hfpm : PageTable.find_pte m root w = some (Q, J) := by
      rw [PageTable.find_pte_eq m root w h0' h1', ← hQ, ← hJ]
    unfold PageTable.translate
    rw [hfpm]
    simp only [Option.map_some']
    exact h

theorem validTranslate_after_zero (m : Mach) (root v P I : Nat)
    (hfp : PageTable.find_pte m root v = some (P, I)) :
    validTranslate (writePTE m P I 0) root v = false := by
  obtain ⟨h0, h1, hP, hI⟩ := PageTable.find_pte_some m root v P I hfp
  unfold validTranslate
  by_cases hRoot : root = P ∧ vpnIdx0 v = I
  · have hnone : PageTable.find_pte (writePTE m P I 0) root v = none := by
      rw [PageTable.find_pte_none_iff]
      unfold walkIntermediatesValid
      rw [readPTE_writePTE, if_pos hRoot, PageTableEntry.is_valid_zero]
      simp
    unfold PageTable.translate
    rw [hnone]
    simp
  · have e0eq : readPTE (writePTE m P I 0) root (vpnIdx0 v) = readPTE m root (vpnIdx0 v) := by
      rw [readPTE_writePTE, if_neg hRoot]
    by_cases hP1 : PageTableEntry.ppn (readPTE m root (vpnIdx0 v)) = P ∧ vpnIdx1 v = I
    · have hnone : PageTable.find_pte (writePTE m P I 0) root v = none := by
        rw [PageTable.find_pte_none_iff]
        unfold walkIntermediatesValid
        rw [e0eq, readPTE_writePTE, if_pos hP1, PageTableEntry.is_valid_zero]
        simp
      unfold PageTable.translate
      rw [hnone]
      simp
    · have e1eq : readPTE (writePTE m P I 0)
          (PageTableEntry.ppn (readPTE m root (vpnIdx0 v))) (vpnIdx1 v)
          = readPTE m (PageTableEntry.ppn (readPTE m root (vpnIdx0 v))) (vpnIdx1 v) := by
        rw [readPTE_writePTE, if_neg hP1]
      have hsome : PageTable.find_pte (writePTE m P I 0) root v = some (P, I) := by
        rw [PageTable.find_pte_eq (writePTE m P I 0) root v (by rw [e0eq]; exact h0)
          (by rw [e0eq, e1eq]; exact h1)]
        rw [e0eq, e1eq, ← hP, ← hI]
      unfold PageTable.translate
      rw [hsome]
      simp only [Option.map_some']
      rw [readPTE_writePTE, if_pos ⟨rfl, rfl⟩, PageTableEntry.is_valid_zero]

/-! ### Postconditions of PageTable.map -/

theorem PageTable.createStep_some (m : Mach) (p i : Nat) (mA : Mach) (p1 : Nat)
    (h : PageTable.createStep m p i = some (mA, p1)) :
    (∀ q j, PageTableEntry.is_valid (readPTE m q j) = true →
      readPTE mA q j = readPTE m q j) ∧
    PageTableEntry.is_valid (readPTE mA p i) = true ∧
    PageTableEntry.ppn (readPTE mA p i) = p1 ∧
    m.next ≤ mA.next := by
  unfold PageTable.createStep at h
  by_cases hv : PageTableEntry.is_valid (readPTE m p i) = true
  · rw [if_pos hv] at h
    simp only [Option.some.injEq, Prod.mk.injEq] at h
    obtain ⟨rfl, rfl⟩ := h
    exact ⟨fun q j _ => rfl, hv, rfl, Nat.le_refl _⟩
  · rw [if_neg hv] at h
    cases hal : frameAlloc m with
    | none => rw [hal] at h; exact absurd h (by simp)
    | some fm =>
      obtain ⟨f, m1⟩ := fm
      rw [hal] at h
      simp only [Option.some.injEq, Prod.mk.injEq] at h
      obtain ⟨rfl, rfl⟩ := h
      obtain ⟨hf, hlt, hmem, hnext⟩ := frameAlloc_some m f m1 hal
      refine ⟨?_, ?_, by rw [readPTE_writePTE, if_pos ⟨rfl, rfl⟩], ?_⟩
      · intro q j hq
        rw [readPTE_writePTE]
        rw [if_neg]
        · show m1.mem q j = readPTE m q j
          rw [hmem]; rfl
        · intro hcon
          obtain ⟨rfl, rfl⟩ := hcon
          exact hv hq
      · rw [readPTE_writePTE, if_pos ⟨rfl, rfl⟩]
        rw [PageTableEntry.is_valid_new]
        decide
      · rw [writePTE_next, hnext]
        omega

theorem PageTable.map_some (m : Mach) (root vpn ppnv flags : Nat) (m' : Mach)
    (h : PageTable.map m root vpn ppnv flags = some m') :
    (∃ P I, PageTable.find_pte m' root vpn = some (P, I) ∧
      readPTE m' P I = PageTableEntry.new ppnv (flags ||| 1) ∧
      PageTableEntry.is_valid (readPTE m P I) = false ∧ I = vpnIdx2 vpn) ∧
    (∀ q j, PageTableEntry.is_valid (readPTE m q j) = true →
      readPTE m' q j = readPTE m q j) ∧
    m.next ≤ m'.next := by
  unfold PageTable.map at h
  split at h
  · exact absurd h (by simp)
  · rename_i m1 P I hfc
    split at h
    · exact absurd h (by simp)
    · rename_i hg
      simp only [Option.some.injEq] at h
      subst h
      unfold PageTable.find_pte_create at hfc
      split at hfc
      · exact absurd hfc (by simp)
      · rename_i mA p1 hs0
        split at hfc
        · exact absurd hfc (by simp)
        · rename_i mB p2 hs1
          simp only [Option.some.injEq, Prod.mk.injEq] at hfc
          obtain ⟨rfl, rfl, rfl⟩ := hfc
          obtain ⟨pres0, val0, ppn0, next0⟩ :=
            PageTable.createStep_some m root (vpnIdx0 vpn) mA p1 hs0
          obtain ⟨pres1, val1, ppn1, next1⟩ :=
            PageTable.createStep_some mA p1 (vpnIdx1 vpn) mB p2 hs1
          have val0B : PageTableEntry.is_valid (readPTE mB root (vpnIdx0 vpn)) = true := by
            rw [pres1 _ _ val0]; exact val0
          have ppn0B : PageTableEntry.ppn (readPTE mB root (vpnIdx0 vpn)) = p1 := by
            rw [pres1 _ _ val0]; exact ppn0
          have hne0 : ¬(root = p2 ∧ vpnIdx0 vpn = vpnIdx2 vpn) := by
            intro hcon
            obtain ⟨hc1, hc2⟩ := hcon
            rw [hc1, hc2] at val0B
            simp [val0B] at hg
          have hne1 : ¬(p1 = p2 ∧ vpnIdx1 vpn = vpnIdx2 vpn) := by
            intro hcon
            obtain ⟨hc1, hc2⟩ := hcon
            rw [hc1, hc2] at val1
            simp [val1] at hg
          set mW := writePTE mB p2 (vpnIdx2 vpn) (PageTableEntry.new ppnv (flags ||| 1))
            with hmW
          have e0W : readPTE mW root (vpnIdx0 vpn) = readPTE mB root (vpnIdx0 vpn) := by
            rw [hmW, readPTE_writePTE, if_neg hne0]
          have e1W : readPTE mW p1 (vpnIdx1 vpn) = readPTE mB p1 (vpnIdx1 vpn) := by
            rw [hmW, readPTE_writePTE, if_neg hne1]
          have leafW : readPTE mW p2 (vpnIdx2 vpn)
              = PageTableEntry.new ppnv (flags ||| 1) := by
            rw [hmW, readPTE_writePTE, if_pos ⟨rfl, rfl⟩]
          refine ⟨⟨p2, vpnIdx2 vpn, ?_, leafW, ?_, rfl⟩, ?_, ?_⟩
          · rw [PageTable.find_pte_eq mW root vpn (by rw [e0W]; exact val0B)
              (by rw [e0W, ppn0B, e1W]; exact val1)]
            rw [e0W, ppn0B, e1W, ppn1]
          · by_cases hvm : PageTableEntry.is_valid (readPTE m p2 (vpnIdx2 vpn)) = true
            · have hA : readPTE mA p2 (vpnIdx2 vpn) = readPTE m p2 (vpnIdx2 vpn) :=
                pres0 _ _ hvm
              have hBB : readPTE mB p2 (vpnIdx2 vpn) = readPTE m p2 (vpnIdx2 vpn) := by
                rw [pres1 _ _ (by rw [hA]; exact hvm), hA]
              rw [hBB] at hg
              simp [hvm] at hg
            · rw [Bool.not_eq_true] at hvm
              exact hvm
          · intro q j hq
            have hB : readPTE mB q j = readPTE m q j := by
              rw [pres1 _ _ (by rw [pres0 _ _ hq]; exact hq), pres0 _ _ hq]
            have hneq : ¬(q = p2 ∧ j = vpnIdx2 vpn) := by
              intro hcon
              obtain ⟨rfl, rfl⟩ := hcon
              rw [← hB] at hq
              rw [hq] at hg
              exact hg rfl
            rw [hmW, readPTE_writePTE, if_neg hneq, hB]
          · rw [hmW, writePTE_next]
            omega

/-! ### Postconditions of establishing a Framed area (MapArea::map) -/

theorem MapArea.map_one_framed (m : Mach) (a : MapArea) (root vpn : Nat)
    (m1 : Mach) (a1 : MapArea) (hty : a.mapType = MapType.Framed)
    (h : MapArea.map_one m a root vpn = some (m1, a1)) :
    ∃ f mAl, frameAlloc m = some (f, mAl) ∧
      PageTable.map mAl root vpn f a.mapPerm = some m1 ∧
      a1 = { a with dataFrames := dfInsert a.dataFrames vpn f } := by
  unfold MapArea.map_one at h
  rw [hty] at h
  cases hal : frameAlloc m with
  | none => rw [hal] at h; exact absurd h (by simp)
  | some fm =>
    obtain ⟨f, mAl⟩ := fm
    rw [hal] at h
    simp only at h
    cases hm : PageTable.map mAl root vpn f a.mapPerm with
    | none => rw [hm] at h; exact absurd h (by simp)
    | some mm =>
      rw [hm] at h
      simp only [Option.map_some', Option.some.injEq, Prod.mk.injEq] at h
      obtain ⟨rfl, rfl⟩ := h
      exact ⟨f, mAl, rfl, hm, by rw [hty]⟩

theorem readPTE_frameAlloc (m : Mach) (f : Nat) (mAl : Mach)
    (hal : frameAlloc m = some (f, mAl)) (q j : Nat) :
    readPTE mAl q j = readPTE m q j := by
  obtain ⟨_, _, hmem, _⟩ := frameAlloc_some m f mAl hal
  show mAl.mem q j = m.mem q j
  rw [hmem]

theorem MapArea.mapRange_some (root : Nat) (vs : List Nat) :
    ∀ (m : Mach) (a : MapArea) (m' : Mach) (a' : MapArea),
    MapArea.mapRange m root a vs = some (m', a') →
    a.mapType = MapType.Framed →
    ((∀ q j, PageTableEntry.is_valid (readPTE m q j) = true →
        readPTE m' q j = readPTE m q j) ∧
     (∀ v ∈ vs, ∃ p P I, PageTable.find_pte m' root v = some (P, I) ∧
        readPTE m' P I = PageTableEntry.new p (a.mapPerm ||| 1)) ∧
     (∀ v ∈ vs, ∀ q j, PageTableEntry.is_valid (readPTE m q j) = true →
        PageTable.find_pte m' root v ≠ some (q, j)) ∧
     (∀ v ∈ vs, ∀ w ∈ vs, v ≠ w →
        PageTable.find_pte m' root v ≠ PageTable.find_pte m' root w) ∧
     a'.mapType = MapType.Framed ∧ a'.mapPerm = a.mapPerm ∧
     (∀ w, (dfLookup a'.dataFrames w).isSome = true ↔
        ((dfLookup a.dataFrames w).isSome = true ∨ w ∈ vs))) := by
  induction vs with
  | nil =>
    intro m a m' a' h hty
    unfold MapArea.mapRange at h
    simp only [Option.some.injEq, Prod.mk.injEq] at h
    obtain ⟨rfl, rfl⟩ := h
    refine ⟨fun q j _ => rfl, by simp, by simp, by simp, hty, rfl, by simp⟩
  | cons v vs ih =>
    intro m a m' a' h hty
    unfold MapArea.mapRange at h
    cases hone : MapArea.map_one m a root v with
    | none => rw [hone] at h; exact absurd h (by simp)
    | some p1 =>
      obtain ⟨m1, a1⟩ := p1
      rw [hone] at h
      obtain ⟨f, mAl, hal, hm, ha1⟩ :=
        MapArea.map_one_framed m a root v m1 a1 hty hone
      have ha1ty : a1.mapType = MapType.Framed := by rw [ha1]; exact hty
      have ha1perm : a1.mapPerm = a.mapPerm := by rw [ha1]
      obtain ⟨presT, transT, freshT, pairT, htyT, hpermT, framesT⟩ :=
        ih m1 a1 m' a' h ha1ty
      obtain ⟨⟨P, I, hfp1, hval1, hinv1, hI⟩, presH, hnextH⟩ :=
        PageTable.map_some mAl root v f a.mapPerm m1 hm
    -- the head leaf is valid in m1
      have hvalid1 : PageTableEntry.is_valid (readPTE m1 P I) = true := by
        rw [hval1]
        exact PageTableEntry.is_valid_new_or_one f (a.mapPerm)
      have hleafinvm : PageTableEntry.is_valid (readPTE m P I) = false := by
        rw [← readPTE_frameAlloc m f mAl hal]
        exact hinv1
    -- preservation m → m1, then m → m'
      have presHm : ∀ q j, PageTableEntry.is_valid (readPTE m q j) = true →
          readPTE m1 q j = readPTE m q j := by
        intro q j hq
        rw [presH q j (by rw [readPTE_frameAlloc m f mAl hal]; exact hq),
          readPTE_frameAlloc m f mAl hal]
      have presAll : ∀ q j, PageTableEntry.is_valid (readPTE m q j) = true →
          readPTE m' q j = readPTE m q j := by
        intro q j hq
        rw [presT q j (by rw [presHm q j hq]; exact hq), presHm q j hq]
    -- head translation survives to m'
      obtain ⟨hfpH, hvalH⟩ :=
        PageTable.find_pte_pres m1 m' root v presT P I hfp1 hvalid1
      refine ⟨presAll, ?_, ?_, ?_, htyT, by rw [hpermT, ha1perm], ?_⟩
      · intro u hu
        rcases List.mem_cons.mp hu with rfl | hu'
        · exact ⟨f, P, I, hfpH, by rw [hvalH, hval1]⟩
        · obtain ⟨p, Q, J, hq1, hq2⟩ := transT u hu'
          exact ⟨p, Q, J, hq1, by rw [hq2, ha1perm]⟩
      · intro u hu q j hq
        rcases List.mem_cons.mp hu with rfl | hu'
        · rw [hfpH]
          intro hcon
          simp only [Option.some.injEq, Prod.mk.injEq] at hcon
          obtain ⟨rfl, rfl⟩ := hcon
          rw [hq] at hleafinvm
          exact absurd hleafinvm (by simp)
        · exact freshT u hu' q j (by rw [presHm q j hq]; exact hq)
      · intro u hu w hw hne
        rcases List.mem_cons.mp hu with rfl | hu' <;>
          rcases List.mem_cons.mp hw with rfl | hw'
        · exact absurd rfl hne
        · rw [hfpH]
          exact fun hcon => freshT w hw' P I hvalid1 hcon.symm
        · rw [hfpH]
          exact fun hcon => freshT u hu' P I hvalid1 hcon
        · exact pairT u hu' w hw' hne
      · intro w
        rw [framesT w, ha1]
        by_cases hw : w = v
        · subst hw
          rw [dfLookup_insert]
          simp
        · rw [dfLookup_insert, if_neg hw]
          constructor
          · rintro (h1 | h2)
            · exact Or.inl h1
            · exact Or.inr (List.mem_cons_of_mem _ h2)
          · rintro (h1 | h2)
            · exact Or.inl h1
            · rcases List.mem_cons.mp h2 with rfl | h3
              · exact absurd rfl hw
              · exact Or.inr h3

/-! ### mmap unfolding lemmas -/

theorem portLow_of_maskZero (port : Nat) (h : port &&& 0xfffffffffffffff8 = 0) :
    port % 256 = port &&& 7 ∧ port &&& 7 < 8 := by
  constructor
  · apply Nat.eq_of_testBit_eq
    intro i
    rw [show (256 : Nat) = 2 ^ 8 by norm_num, Nat.testBit_mod_two_pow]
    rw [show (7 : Nat) = 2 ^ 3 - 1 by norm_num, Nat.and_pow_two_sub_one_eq_mod,
      Nat.testBit_mod_two_pow]
    by_cases hi3 : i < 3
    · have : i < 8 := by omega
      simp [this, hi3]
    · by_cases hi8 : i < 8
      · have hbit : port.testBit i = false := by
          have := congrArg (fun x => x.testBit i) h
          simp only [Nat.testBit_land, Nat.zero_testBit] at this
          rw [Bool.and_eq_false_iff] at this
          rcases this with h1 | h2
          · exact h1
          · exfalso
            have : (0xfffffffffffffff8 : Nat).testBit i = true := by
              interval_cases i <;> decide
            rw [this] at h2
            exact absurd h2 (by simp)
        simp [hi8, hi3, hbit]
      · simp [hi8, hi3]
  · rw [show (7 : Nat) = 2 ^ 3 - 1 by norm_num, Nat.and_pow_two_sub_one_eq_mod]
    have := Nat.mod_lt port (show 0 < 2 ^ 3 by norm_num)
    omega

theorem mkPermission_valid (port : Nat) (hmask : port &&& 0xfffffffffffffff8 = 0) :
    mkPermission port = some ((port &&& 7) * 2 + 16) := by
  obtain ⟨hmod, hlt⟩ := portLow_of_maskZero port hmask
  unfold mkPermission
  rw [hmod]
  have hx : (port &&& 7) <<< 1 % 256 = (port &&& 7) * 2 := by
    rw [Nat.shiftLeft_eq]
    have : (port &&& 7) * 2 ^ 1 < 256 := by omega
    rw [Nat.mod_eq_of_lt this]
    norm_num
  rw [hx]
  have hand : ((port &&& 7) * 2) &&& 0b11110 = (port &&& 7) * 2 := by
    apply Nat.eq_of_testBit_eq
    intro i
    rw [Nat.testBit_land]
    by_cases hi : i < 5
    · by_cases hi0 : i = 0
      · subst hi0
        have : ((port &&& 7) * 2).testBit 0 = false := by
          rw [Nat.testBit_to_div_mod]
          simp only [pow_zero, Nat.div_one, decide_eq_false_iff_not]
          omega
        simp [this]
      · have : (0b11110 : Nat).testBit i = true := by
          interval_cases i <;> simp_all <;> decide
        simp [this]
    · have h1 : ((port &&& 7) * 2).testBit i = false := by
        apply Nat.testBit_lt_two_pow
        calc (port &&& 7) * 2 < 16 := by omega
        _ ≤ 2 ^ i := by
          calc (16 : Nat) = 2 ^ 4 := by norm_num
          _ ≤ 2 ^ i := Nat.pow_le_pow_right (by omega) (by omega)
      simp [h1]
  rw [if_pos hand]
  have : (port &&& 7) * 2 ||| 16 = (port &&& 7) * 2 + 16 := by
    apply Nat.eq_of_testBit_eq
    intro i
    rw [Nat.testBit_lor]
    have h16 : (16 : Nat) = 2 ^ 4 * 1 := by norm_num
    have hadd : (port &&& 7) * 2 + 16 = 2 ^ 4 * 1 + (port &&& 7) * 2 := by omega
    rw [hadd, Nat.testBit_mul_pow_two_add _ (by omega)]
    by_cases hi : i < 4
    · have : (16 : Nat).testBit i = false := by interval_cases i <;> decide
      simp [this, hi]
    · have hlow : ((port &&& 7) * 2).testBit i = false := by
        apply Nat.testBit_lt_two_pow
        calc (port &&& 7) * 2 < 16 := by omega
        _ ≤ 2 ^ i := by
          calc (16 : Nat) = 2 ^ 4 := by norm_num
          _ ≤ 2 ^ i := Nat.pow_le_pow_right (by omega) (by omega)
      have h16b : (16 : Nat).testBit i = (1 : Nat).testBit (i - 4) := by
        rw [show (16 : Nat) = 1 <<< 4 by decide, Nat.testBit_shiftLeft]
        have : decide (i ≥ 4) = true := by simp; omega
        rw [this]
        simp
      simp [hlow, h16b, hi]
  rw [this]

theorem vaCeil_page_mul (e : Nat) : vaCeil (e * PAGE_SIZE) = e := by
  unfold vaCeil PAGE_SIZE
  omega

theorem vaFloor_page_mul (e : Nat) : vaFloor (e * PAGE_SIZE) = e := by
  unfold vaFloor PAGE_SIZE
  omega

theorem MemorySet.mmap_checks_fail (m : Mach) (ms : MemorySet) (start len port : Nat)
    (h : pageOffset start ≠ 0 ∨ port &&& 0xfffffffffffffff8 ≠ 0 ∨ port &&& 0x7 = 0) :
    MemorySet.mmap m ms start len port = some (-1, m, ms) := by
  unfold MemorySet.mmap
  rcases h with h1 | h2 | h3
  · rw [if_pos h1]
  · by_cases ha : pageOffset start ≠ 0
    · rw [if_pos ha]
    · rw [if_neg ha, if_pos h2]
  · by_cases ha : pageOffset start ≠ 0
    · rw [if_pos ha]
    · rw [if_neg ha]
      by_cases hb : port &&& 0xfffffffffffffff8 ≠ 0
      · rw [if_pos hb]
      · rw [if_neg hb, if_pos h3]

theorem MemorySet.mmap_zero_parts (m : Mach) (ms : MemorySet) (start len port : Nat)
    (m' : Mach) (ms' : MemorySet)
    (h : MemorySet.mmap m ms start len port = some (0, m', ms')) :
    pageOffset start = 0 ∧ port &&& 0xfffffffffffffff8 = 0 ∧ port &&& 7 ≠ 0 ∧
    frameOverlap ms (vaFloor start)
      (vaCeil (start + (if len < 4096 then 4096 else len))) = false ∧
    ∃ a', MapArea.mapRange m ms.root
        (MapArea.new start
          (vaCeil (start + (if len < 4096 then 4096 else len)) * PAGE_SIZE)
          MapType.Framed ((port &&& 7) * 2 + 16))
        (rangeList (vaFloor start)
          (vaCeil (start + (if len < 4096 then 4096 else len))))
        = some (m', a') ∧
      ms' = ⟨ms.root, ms.areas ++ [a']⟩ := by
  unfold MemorySet.mmap at h
  by_cases h1 : pageOffset start ≠ 0
  · rw [if_pos h1] at h
    simp only [Option.some.injEq, Prod.mk.injEq] at h
    exact absurd h.1 (by decide)
  · rw [if_neg h1] at h
    rw [Decidable.not_not] at h1
    by_cases h2 : port &&& 0xfffffffffffffff8 ≠ 0
    · rw [if_pos h2] at h
      simp only [Option.some.injEq, Prod.mk.injEq] at h
      exact absurd h.1 (by decide)
    · rw [if_neg h2] at h
      rw [Decidable.not_not] at h2
      by_cases h3 : port &&& 0x7 = 0
      · rw [if_pos h3] at h
        simp only [Option.some.injEq, Prod.mk.injEq] at h
        exact absurd h.1 (by decide)
      · rw [if_neg h3] at h
        by_cases h4 : (rangeList (vaFloor start)
            (vaCeil (start + (if len < 4096 then 4096 else len)))).any
            (fun vpn => ms.areas.any fun a => (dfLookup a.dataFrames vpn).isSome) = true
        · rw [if_pos h4] at h
          simp only [Option.some.injEq, Prod.mk.injEq] at h
          exact absurd h.1 (by decide)
        · rw [if_neg h4] at h
          rw [mkPermission_valid port h2] at h
          simp only at h
          unfold MemorySet.insert_framed_area MemorySet.push at h
          refine ⟨h1, h2, h3, by
            unfold frameOverlap
            rw [Bool.not_eq_true] at h4
            exact h4, ?_⟩
          cases hmr : MapArea.mapRange m ms.root
              (MapArea.new start
                (vaCeil (start + (if len < 4096 then 4096 else len)) * PAGE_SIZE)
                MapType.Framed ((port &&& 7) * 2 + 16))
              (rangeList (vaFloor start)
                (vaCeil (start + (if len < 4096 then 4096 else len)))) with
          | none =>
            rw [show (MapArea.new start
                (vaCeil (start + (if len < 4096 then 4096 else len)) * PAGE_SIZE)
                MapType.Framed ((port &&& 7) * 2 + 16)).vpnStart = vaFloor start
                from rfl,
              show (MapArea.new start
                (vaCeil (start + (if len < 4096 then 4096 else len)) * PAGE_SIZE)
                MapType.Framed ((port &&& 7) * 2 + 16)).vpnEnd
                = vaCeil (vaCeil (start + (if len < 4096 then 4096 else len)) * PAGE_SIZE)
                from rfl, vaCeil_page_mul] at h
            rw [hmr] at h
            exact absurd h (by simp)
          | some pr =>
            obtain ⟨mm, aa⟩ := pr
            rw [show (MapArea.new start
                (vaCeil (start + (if len < 4096 then 4096 else len)) * PAGE_SIZE)
                MapType.Framed ((port &&& 7) * 2 + 16)).vpnStart = vaFloor start
                from rfl,
              show (MapArea.new start
                (vaCeil (start + (if len < 4096 then 4096 else len)) * PAGE_SIZE)
                MapType.Framed ((port &&& 7) * 2 + 16)).vpnEnd
                = vaCeil (vaCeil (start + (if len < 4096 then 4096 else len)) * PAGE_SIZE)
                from rfl, vaCeil_page_mul] at h
            rw [hmr] at h
            simp only [Option.map_some', Option.some.injEq, Prod.mk.injEq] at h
            refine ⟨aa, ?_, h.2.2.symm⟩
            rw [h.2.1]

/-! ### Claim C6: mmap argument validation -/

/-- C6: for every start, len and port, if start is not page-aligned, or port
has any bit set outside the low 3 bits, or no bit of the low 3 is set, then
mmap returns -1 and the address space is unchanged: same machine state (so no
page mapped and no frame allocated) and same memory set (no region created). -/
theorem mmap_invalid_args_rejected (m : Mach) (ms : MemorySet) (start len port : Nat)
    (h : pageOffset start ≠ 0 ∨ port &&& 0xfffffffffffffff8 ≠ 0 ∨ port &&& 0x7 = 0) :
    MemorySet.mmap m ms start len port = some (-1, m, ms) :=
  MemorySet.mmap_checks_fail m ms start len port h

/-- Witness for C6 at start = 4097 (misaligned), and port = 0 and port = 8 at
an aligned start. -/
theorem mmap_invalid_args_rejected_witness :
    MemorySet.mmap mW msW 4097 1 3 = some (-1, mW, msW) ∧
    MemorySet.mmap mW msW 4096 1 0 = some (-1, mW, msW) ∧
    MemorySet.mmap mW msW 4096 1 8 = some (-1, mW, msW) :=
  ⟨mmap_invalid_args_rejected mW msW 4097 1 3 (Or.inl (by decide)),
   mmap_invalid_args_rejected mW msW 4096 1 0 (Or.inr (Or.inr (by decide))),
   mmap_invalid_args_rejected mW msW 4096 1 8 (Or.inr (Or.inl (by decide)))⟩

/-! ### Claim C3: the overlap rejection is exactly frame-presence-based -/

/-- C3: for an aligned start and valid port, mmap returns -1 if and only if
some virtual page of the target range has an allocated frame recorded in the
data_frames of some existing area.  Only frame presence is consulted: pages
covered by an Identical region, or lying inside a Framed region's declared
range without an allocated frame, have empty or missing data_frames entries
and so do not trigger the -1. -/
theorem mmap_overlap_iff_frame_presence (m : Mach) (ms : MemorySet)
    (start len port : Nat) (hal : pageOffset start = 0)
    (hp1 : port &&& 0xfffffffffffffff8 = 0) (hp2 : port &&& 0x7 ≠ 0) :
    mmapCode m ms start len port = some (-1) ↔
      frameOverlap ms (vaFloor start)
        (vaCeil (start + (if len < 4096 then 4096 else len))) = true := by
  unfold mmapCode MemorySet.mmap
  rw [if_neg (by omega : ¬pageOffset start ≠ 0),
    if_neg (by omega : ¬port &&& 0xfffffffffffffff8 ≠ 0), if_neg hp2]
  by_cases hov : frameOverlap ms (vaFloor start)
      (vaCeil (start + (if len < 4096 then 4096 else len))) = true
  · rw [if_pos (by exact hov)]
    simp [hov]
  · rw [if_neg (by exact hov)]
    rw [mkPermission_valid port hp1]
    simp only
    constructor
    · intro hcon
      cases hins : MemorySet.insert_framed_area m ms start
          (vaCeil (start + (if len < 4096 then 4096 else len)) * PAGE_SIZE)
          ((port &&& 7) * 2 + 16) with
      | none =>
        rw [hins] at hcon
        exact absurd hcon (by simp)
      | some pr =>
        rw [hins] at hcon
        simp only [Option.map_some', Option.some.injEq] at hcon
        exact absurd hcon (by decide)
    · intro hcon
      exact absurd hcon hov

/-- Witness for C3: with one page mapped at vpn 1, re-mapping the same page
gives -1 (frame present), while mapping vpn 2 does not. -/
theorem mmap_overlap_iff_frame_presence_witness :
    (mmapCode (mmapSt mW msW 4096 1 3).1 (mmapSt mW msW 4096 1 3).2 4096 1 3
        = some (-1)) ∧
    ¬frameOverlap (mmapSt mW msW 4096 1 3).2 (vaFloor 8192)
        (vaCeil (8192 + (if 1 < 4096 then 4096 else 1))) = true := by
  constructor
  · exact (mmap_overlap_iff_frame_presence (mmapSt mW msW 4096 1 3).1
      (mmapSt mW msW 4096 1 3).2 4096 1 3 (by decide) (by decide)
      (by decide)).mpr (by decide)
  · have h := mmap_overlap_iff_frame_presence (mmapSt mW msW 4096 1 3).1
      (mmapSt mW msW 4096 1 3).2 8192 1 3 (by decide) (by decide) (by decide)
    intro hcon
    have := h.mpr hcon
    have hz : mmapCode (mmapSt mW msW 4096 1 3).1 (mmapSt mW msW 4096 1 3).2
        8192 1 3 = some 0 := by decide
    rw [hz] at this
    exact absurd this (by decide)

/-! ### Claim C7: double map / double unmap are fatal aborts -/

/-- C7: PageTable::map on a vpn whose leaf entry (after materializing the
walk) is already valid is a fatal abort (none), never a recoverable return;
PageTable::unmap on a vpn whose leaf entry is absent or whose intermediate
tables are missing is likewise a fatal abort; under the preconditions (leaf
absent for map, leaf valid for unmap) neither aborts, and map writes Valid
plus the supplied flags (PageTableEntry::new ppn (flags | V)) into the leaf. -/
theorem map_unmap_fatal_aborts (m : Mach) (root vpn ppnv flags : Nat)
    (mc : Mach) (P I : Nat)
    (hfc : PageTable.find_pte_create m root vpn = some (mc, P, I)) :
    (PageTableEntry.is_valid (readPTE mc P I) = true →
      PageTable.map m root vpn ppnv flags = none) ∧
    (PageTableEntry.is_valid (readPTE mc P I) = false →
      PageTable.map m root vpn ppnv flags =
        some (writePTE mc P I (PageTableEntry.new ppnv (flags ||| 1)))) ∧
    (PageTable.unmap m root vpn = none ↔
      ¬∃ Q J, PageTable.find_pte m root vpn = some (Q, J) ∧
        PageTableEntry.is_valid (readPTE m Q J) = true) ∧
    (∀ Q J, PageTable.find_pte m root vpn = some (Q, J) →
      PageTableEntry.is_valid (readPTE m Q J) = true →
      PageTable.unmap m root vpn = some (writePTE m Q J 0)) := by
  refine ⟨?_, ?_, ?_, ?_⟩
  · intro hv
    unfold PageTable.map
    rw [hfc]
    simp only
    rw [if_pos hv]
  · intro hv
    unfold PageTable.map
    rw [hfc]
    simp only
    rw [if_neg (by rw [hv]; simp)]
  · unfold PageTable.unmap
    cases hfp : PageTable.find_pte m root vpn with
    | none =>
      simp only
      constructor
      · rintro - ⟨Q, J, hq, -⟩
        exact absurd hq (by simp)
      · intro
        trivial
    | some pi =>
      obtain ⟨Q, J⟩ := pi
      simp only
      by_cases hv : PageTableEntry.is_valid (readPTE m Q J) = true
      · rw [if_pos hv]
        constructor
        · intro hcon
          exact absurd hcon (by simp)
        · intro hcon
          exact absurd ⟨Q, J, rfl, hv⟩ hcon
      · rw [if_neg hv]
        constructor
        · rintro - ⟨Q2, J2, hq, hval⟩
          simp only [Option.some.injEq, Prod.mk.injEq] at hq
          obtain ⟨rfl, rfl⟩ := hq
          exact hv hval
        · intro
          rfl
  · intro Q J hfp hv
    unfold PageTable.unmap
    rw [hfp]
    simp only
    rw [if_pos hv]

/-- Witness for C7: on the fresh fixture, unmapping the never-mapped vpn 0 is
a fatal abort, and mapping vpn 0 (leaf absent) succeeds. -/
theorem map_unmap_fatal_aborts_witness :
    PageTable.unmap mW 0 0 = none ∧ PageTable.map mW 0 0 5 2 ≠ none := by
  have hfc : PageTable.find_pte_create mW 0 0 =
      some (⟨fun q j =>
        if q = 1 ∧ j = 0 then PageTableEntry.new 2 1
        else if q = 0 ∧ j = 0 then PageTableEntry.new 1 1
        else 0, 3⟩, 2, 0) := by
    rfl
  have h := map_unmap_fatal_aborts mW 0 0 5 2 _ 2 0 hfc
  constructor
  · exact h.2.2.1.mpr (by
      rintro ⟨Q, J, hq, hval⟩
      have : PageTable.find_pte mW 0 0 = none := by decide
      rw [this] at hq
      exact absurd hq (by simp))
  · rw [h.2.1 (by decide)]
    simp

/-! ### Claim C9: translate distinguishes cleared leaves from broken walks -/

/-- C9: translate returns none exactly when a non-leaf entry of the
three-level walk is invalid; and after a successful unmap whose result state
still has both non-leaf walk entries valid, translate returns some of the
all-zero entry (Valid bit clear) rather than none — so callers must check the
Valid bit, not merely Option presence. -/
theorem translate_cleared_leaf_some_zero (m : Mach) (root vpn : Nat) :
    (PageTable.translate m root vpn = none ↔
      walkIntermediatesValid m root vpn = false) ∧
    (∀ m2, PageTable.unmap m root vpn = some m2 →
      walkIntermediatesValid m2 root vpn = true →
      PageTable.translate m2 root vpn = some 0) := by
  refine ⟨PageTable.translate_none_iff m root vpn, ?_⟩
  intro m2 hu hW
  unfold PageTable.unmap at hu
  cases hfp : PageTable.find_pte m root vpn with
  | none => rw [hfp] at hu; exact absurd hu (by simp)
  | some pi =>
    obtain ⟨P, I⟩ := pi
    rw [hfp] at hu
    simp only at hu
    by_cases hv : PageTableEntry.is_valid (readPTE m P I) = true
    · rw [if_pos hv] at hu
      simp only [Option.some.injEq] at hu
      subst hu
      obtain ⟨h0, h1, hP, hI⟩ := PageTable.find_pte_some m root vpn P I hfp
      unfold walkIntermediatesValid at hW
      rw [Bool.and_eq_true] at hW
      obtain ⟨hW0, hW1⟩ := hW
      have hRootNe : ¬(root = P ∧ vpnIdx0 vpn = I) := by
        intro hcon
        rw [readPTE_writePTE, if_pos hcon, PageTableEntry.is_valid_zero] at hW0
        exact absurd hW0 (by simp)
      have e0eq : readPTE (writePTE m P I 0) root (vpnIdx0 vpn)
          = readPTE m root (vpnIdx0 vpn) := by
        rw [readPTE_writePTE, if_neg hRootNe]
      rw [e0eq] at hW0 hW1
      have hP1Ne : ¬(PageTableEntry.ppn (readPTE m root (vpnIdx0 vpn)) = P ∧
          vpnIdx1 vpn = I) := by
        intro hcon
        rw [readPTE_writePTE, if_pos hcon, PageTableEntry.is_valid_zero] at hW1
        exact absurd hW1 (by simp)
      have e1eq : readPTE (writePTE m P I 0)
          (PageTableEntry.ppn (readPTE m root (vpnIdx0 vpn))) (vpnIdx1 vpn)
          = readPTE m (PageTableEntry.ppn (readPTE m root (vpnIdx0 vpn))) (vpnIdx1 vpn) := by
        rw [readPTE_writePTE, if_neg hP1Ne]
      rw [e1eq] at hW1
      have hfp2 : PageTable.find_pte (writePTE m P I 0) root vpn = some (P, I) := by
        rw [PageTable.find_pte_eq (writePTE m P I 0) root vpn
          (by rw [e0eq]; exact hW0) (by rw [e0eq, e1eq]; exact hW1)]
        rw [e0eq, e1eq, ← hP, ← hI]
      unfold PageTable.translate
      rw [hfp2]
      simp only [Option.map_some', Option.some.injEq]
      rw [readPTE_writePTE, if_pos ⟨rfl, rfl⟩]
    · rw [if_neg hv] at hu
      exact absurd hu (by simp)

/-- Witness for C9: map vpn 0 on the fixture, unmap it, and translate then
returns some 0 (an all-zero, invalid entry), not none. -/
theorem translate_cleared_leaf_some_zero_witness :
    PageTable.translate (ptUnmapSt (mmapSt mW msW 0 4096 3).1 0 0) 0 0 = some 0 := by
  cases hu : PageTable.unmap (mmapSt mW msW 0 4096 3).1 0 0 with
  | none =>
    have hsome : (PageTable.unmap (mmapSt mW msW 0 4096 3).1 0 0).isSome = true := by
      decide
    rw [hu] at hsome
    exact absurd hsome (by simp)
  | some m2 =>
    have hst : ptUnmapSt (mmapSt mW msW 0 4096 3).1 0 0 = m2 := by
      unfold ptUnmapSt
      rw [hu]
    have hWalk : walkIntermediatesValid m2 0 0 = true := by
      rw [← hst]
      decide
    rw [hst]
    exact (translate_cleared_leaf_some_zero (mmapSt mW msW 0 4096 3).1 0 0).2
      m2 hu hWalk

/-! ### munmap loop lemmas -/

theorem PageTable.unmap_some (m : Mach) (root v : Nat) (mu : Mach)
    (h : PageTable.unmap m root v = some mu) :
    ∃ P I, PageTable.find_pte m root v = some (P, I) ∧
      PageTableEntry.is_valid (readPTE m P I) = true ∧ mu = writePTE m P I 0 := by
  unfold PageTable.unmap at h
  cases hfp : PageTable.find_pte m root v with
  | none => rw [hfp] at h; exact absurd h (by simp)
  | some pi =>
    obtain ⟨P, I⟩ := pi
    rw [hfp] at h
    simp only at h
    by_cases hv : PageTableEntry.is_valid (readPTE m P I) = true
    · rw [if_pos hv] at h
      simp only [Option.some.injEq] at h
      exact ⟨P, I, rfl, hv, h.symm⟩
    · rw [if_neg hv] at h
      exact absurd h (by simp)

theorem unmapFirst_notFound_iff (m : Mach) (root : Nat) (areas : List MapArea)
    (v : Nat) :
    unmapFirst m root areas v = UnmapStep.notFound ↔
      (areas.any fun a => (dfLookup a.dataFrames v).isSome) = false := by
  induction areas with
  | nil => simp [unmapFirst]
  | cons a rest ih =>
    unfold unmapFirst
    by_cases hl : (dfLookup a.dataFrames v).isSome = true
    · rw [if_pos hl]
      cases MapArea.unmap_one m a root v with
      | none => simp [hl]
      | some pr => simp [hl]
    · rw [if_neg hl]
      rw [Bool.not_eq_true] at hl
      cases hrec : unmapFirst m root rest v with
      | notFound => simp [hl, ← ih, hrec]
      | panic => simp [hl, ← ih, hrec]
      | ok m2 rest2 => simp [hl, ← ih, hrec]

theorem unmapFirst_ok (m : Mach) (root : Nat) (areas : List MapArea) (v : Nat)
    (mA : Mach) (areas' : List MapArea)
    (h : unmapFirst m root areas v = UnmapStep.ok mA areas') :
    (∃ P I, PageTable.find_pte m root v = some (P, I) ∧
      PageTableEntry.is_valid (readPTE m P I) = true ∧ mA = writePTE m P I 0) ∧
    (areas.any fun a => (dfLookup a.dataFrames v).isSome) = true ∧
    (∀ w, w ≠ v → (areas'.any fun a => (dfLookup a.dataFrames w).isSome)
      = (areas.any fun a => (dfLookup a.dataFrames w).isSome)) := by
  induction areas generalizing areas' with
  | nil => exact absurd h (by simp [unmapFirst])
  | cons a rest ih =>
    unfold unmapFirst at h
    by_cases hl : (dfLookup a.dataFrames v).isSome = true
    · rw [if_pos hl] at h
      unfold MapArea.unmap_one at h
      cases hu : PageTable.unmap m root v with
      | none => rw [hu] at h; exact absurd h (by simp)
      | some mu =>
        rw [hu] at h
        simp only [Option.map_some', UnmapStep.ok.injEq] at h
        obtain ⟨rfl, rfl⟩ := h
        refine ⟨PageTable.unmap_some m root v mu hu, by simp [hl], ?_⟩
        intro w hw
        simp only [List.any_cons]
        have : (dfLookup
            (if a.mapType = MapType.Framed then
              { a with dataFrames := dfRemove a.dataFrames v }
            else a).dataFrames w).isSome = (dfLookup a.dataFrames w).isSome := by
          by_cases hty : a.mapType = MapType.Framed
          · rw [if_pos hty]
            simp only
            rw [dfLookup_remove, if_neg hw]
          · rw [if_neg hty]
        rw [this]
    · rw [if_neg hl] at h
      cases hrec : unmapFirst m root rest v with
      | notFound => rw [hrec] at h; exact absurd h (by simp)
      | panic => rw [hrec] at h; exact absurd h (by simp)
      | ok m2 rest2 =>
        rw [hrec] at h
        simp only [UnmapStep.ok.injEq] at h
        obtain ⟨rfl, rfl⟩ := h
        obtain ⟨hcore, hany, hpres⟩ := ih rest2 hrec
        rw [Bool.not_eq_true] at hl
        refine ⟨hcore, by simp [hany], ?_⟩
        intro w hw
        simp only [List.any_cons]
        rw [hpres w hw]

theorem munmapLoop_mono (vs : List Nat) :
    ∀ (m : Mach) (ms : MemorySet) (r : Int) (m' : Mach) (ms' : MemorySet),
    munmapLoop m ms vs = some (r, m', ms') →
    (ms'.root = ms.root ∧
     ∀ root w, validTranslate m' root w = true → validTranslate m root w = true) := by
  induction vs with
  | nil =>
    intro m ms r m' ms' h
    unfold munmapLoop at h
    simp only [Option.some.injEq, Prod.mk.injEq] at h
    obtain ⟨-, rfl, rfl⟩ := h
    exact ⟨rfl, fun _ _ hv => hv⟩
  | cons v vs ih =>
    intro m ms r m' ms' h
    unfold munmapLoop at h
    cases hUF : unmapFirst m ms.root ms.areas v with
    | notFound =>
      rw [hUF] at h
      simp only [Option.some.injEq, Prod.mk.injEq] at h
      obtain ⟨-, rfl, rfl⟩ := h
      exact ⟨rfl, fun _ _ hv => hv⟩
    | panic => rw [hUF] at h; exact absurd h (by simp)
    | ok mA areas' =>
      rw [hUF] at h
      obtain ⟨hroot, hmono⟩ := ih mA ⟨ms.root, areas'⟩ r m' ms' h
      obtain ⟨⟨P, I, hfp, hval, rfl⟩, -, -⟩ :=
        unmapFirst_ok m ms.root ms.areas v mA areas' hUF
      exact ⟨hroot, fun root w hv =>
        validTranslate_write_zero m P I root w (hmono root w hv)⟩

theorem find?_congr_mem (l : List Nat) (p q : Nat → Bool)
    (h : ∀ x ∈ l, p x = q x) : l.find? p = l.find? q := by
  induction l with
  | nil => rfl
  | cons a t ih =>
    have ha := h a (List.mem_cons_self a t)
    by_cases hp : p a = true
    · rw [List.find?_cons_of_pos _ hp, List.find?_cons_of_pos _ (by rw [← ha]; exact hp)]
    · rw [List.find?_cons_of_neg _ hp, List.find?_cons_of_neg _ (by rw [← ha]; exact hp)]
      exact ih fun x hx => h x (List.mem_cons_of_mem _ hx)

theorem munmapLoop_char (vs : List Nat) :
    ∀ (m : Mach) (ms : MemorySet) (r : Int) (m' : Mach) (ms' : MemorySet),
    vs.Pairwise (· < ·) →
    munmapLoop m ms vs = some (r, m', ms') →
    ((r = 0 ∨ r = -1) ∧
     (r = 0 ↔ ∀ v ∈ vs, owned ms v = true) ∧
     (r = -1 ↔ ∃ v ∈ vs, owned ms v = false) ∧
     ms'.root = ms.root ∧
     (∀ v0, vs.find? (fun u => !owned ms u) = some v0 →
        (∀ u ∈ vs, u < v0 → validTranslate m' ms.root u = false) ∧
        (∀ w, ¬(w ∈ vs ∧ w < v0) → owned ms' w = owned ms w))) := by
  induction vs with
  | nil =>
    intro m ms r m' ms' hpw h
    unfold munmapLoop at h
    simp only [Option.some.injEq, Prod.mk.injEq] at h
    obtain ⟨rfl, rfl, rfl⟩ := h
    refine ⟨Or.inl rfl, by simp, by simp, rfl, ?_⟩
    intro v0 hfind
    exact absurd hfind (by simp)
  | cons v vs ih =>
    intro m ms r m' ms' hpw h
    have hpwt := List.Pairwise.sublist (List.sublist_cons_self v vs) hpw
    have hlt : ∀ u ∈ vs, v < u := fun u hu => (List.pairwise_cons.mp hpw).1 u hu
    unfold munmapLoop at h
    cases hUF : unmapFirst m ms.root ms.areas v with
    | notFound =>
      rw [hUF] at h
      simp only [Option.some.injEq, Prod.mk.injEq] at h
      obtain ⟨rfl, rfl, rfl⟩ := h
      have hNo : owned ms v = false :=
        (unmapFirst_notFound_iff m ms.root ms.areas v).mp hUF
      refine ⟨Or.inr rfl, ?_, ?_, rfl, ?_⟩
      · constructor
        · intro h0
          exact absurd h0 (by decide)
        · intro hall
          rw [hall v (List.mem_cons_self v vs)] at hNo
          exact absurd hNo (by simp)
      · exact ⟨fun _ => ⟨v, List.mem_cons_self v vs, hNo⟩, fun _ => rfl⟩
      · intro v0 hfind
        rw [List.find?_cons_of_pos _ (by rw [hNo]; rfl)] at hfind
        simp only [Option.some.injEq] at hfind
        subst hfind
        refine ⟨?_, fun w _ => rfl⟩
        intro u hu hult
        rcases List.mem_cons.mp hu with rfl | hu'
        · omega
        · exact absurd hult (by have := hlt u hu'; omega)
    | panic => rw [hUF] at h; exact absurd h (by simp)
    | ok mA areas' =>
      rw [hUF] at h
      obtain ⟨⟨P, I, hfp, hval, rfl⟩, hany, hOwnPres⟩ :=
        unmapFirst_ok m ms.root ms.areas v _ areas' hUF
      have hOwnV : owned ms v = true := hany
      have hOwnPres' : ∀ w, w ≠ v → owned ⟨ms.root, areas'⟩ w = owned ms w := by
        intro w hw
        exact hOwnPres w hw
      obtain ⟨hr01, hIff0, hIffNeg, hRoot, hFind⟩ :=
        ih (writePTE m P I 0) ⟨ms.root, areas'⟩ r m' ms' hpwt h
      have hTailOwn : ∀ u ∈ vs, owned (⟨ms.root, areas'⟩ : MemorySet) u = owned ms u :=
        fun u hu => hOwnPres' u (by have := hlt u hu; omega)
      refine ⟨hr01, ?_, ?_, hRoot, ?_⟩
      · rw [hIff0]
        constructor
        · intro hall u hu
          rcases List.mem_cons.mp hu with rfl | hu'
          · exact hOwnV
          · rw [← hTailOwn u hu']
            exact hall u hu'
        · intro hall u hu
          rw [hTailOwn u hu]
          exact hall u (List.mem_cons_of_mem _ hu)
      · rw [hIffNeg]
        constructor
        · rintro ⟨u, hu, hfalse⟩
          rw [hTailOwn u hu] at hfalse
          exact ⟨u, List.mem_cons_of_mem _ hu, hfalse⟩
        · rintro ⟨u, hu, hfalse⟩
          rcases List.mem_cons.mp hu with rfl | hu'
          · rw [hOwnV] at hfalse
            exact absurd hfalse (by simp)
          · exact ⟨u, hu', by rw [hTailOwn u hu']; exact hfalse⟩
      · intro v0 hfind
        rw [List.find?_cons_of_neg _ (by rw [hOwnV]; simp)] at hfind
        have hfind' : vs.find? (fun u => !owned (⟨ms.root, areas'⟩ : MemorySet) u)
            = some v0 := by
          rw [find?_congr_mem vs _ _ (fun x hx => by rw [hTailOwn x hx])]
          exact hfind
        have hv0mem : v0 ∈ vs := List.mem_of_find?_eq_some hfind
        have hvlt : v < v0 := hlt v0 hv0mem
        obtain ⟨hz, hunch⟩ := hFind v0 hfind'
        refine ⟨?_, ?_⟩
        · intro u hu hult
          rcases List.mem_cons.mp hu with rfl | hu'
          · have hz0 : validTranslate (writePTE m P I 0) ms.root u = false :=
              validTranslate_after_zero m ms.root u P I hfp
            by_cases hcon : validTranslate m' ms.root u = true
            · have := (munmapLoop_mono vs (writePTE m P I 0) ⟨ms.root, areas'⟩
                r m' ms' h).2 ms.root u hcon
              rw [this] at hz0
              exact absurd hz0 (by simp)
            · rw [Bool.not_eq_true] at hcon
              exact hcon
          · have := hz u hu' hult
            simpa using this
        · intro w hw
          have hwne : w ≠ v := by
            intro hcon
            subst hcon
            exact hw ⟨List.mem_cons_self w vs, hvlt⟩
          rw [← hOwnPres' w hwne]
          exact hunch w (by
            intro hcon
            exact hw ⟨List.mem_cons_of_mem _ hcon.1, hcon.2⟩)

/-! ### Claim C2: munmap's partial-failure semantics -/

/-- C2: munmap walks the pages of [floor(start), ceil(start+max(len,4096)))
in increasing order, unmapping each page at the first area owning a frame for
it; the result is 0 exactly when every page of the range is owned, -1 exactly
when some page is owned by no area; when the walk stops at the first unowned
page v0, every range page below v0 has been unmapped (it no longer translates
to a valid entry — no rollback) while ownership at and beyond v0 (and outside
the range) is exactly as it was. -/
theorem munmap_partial_failure_semantics (m : Mach) (ms : MemorySet)
    (start len : Nat) (r : Int) (m' : Mach) (ms' : MemorySet)
    (h : MemorySet.munmap m ms start len = some (r, m', ms')) :
    (r = 0 ∨ r = -1) ∧
    (r = 0 ↔ ∀ v ∈ rangeList (vaFloor start)
        (vaCeil (start + (if len < 4096 then 4096 else len))), owned ms v = true) ∧
    (r = -1 ↔ ∃ v ∈ rangeList (vaFloor start)
        (vaCeil (start + (if len < 4096 then 4096 else len))), owned ms v = false) ∧
    ms'.root = ms.root ∧
    (∀ v0, (rangeList (vaFloor start)
        (vaCeil (start + (if len < 4096 then 4096 else len)))).find?
          (fun u => !owned ms u) = some v0 →
      (∀ u ∈ rangeList (vaFloor start)
          (vaCeil (start + (if len < 4096 then 4096 else len))), u < v0 →
        validTranslate m' ms.root u = false) ∧
      (∀ w, ¬(w ∈ rangeList (vaFloor start)
          (vaCeil (start + (if len < 4096 then 4096 else len))) ∧ w < v0) →
        owned ms' w = owned ms w)) := by
  unfold MemorySet.munmap at h
  exact munmapLoop_char _ m ms r m' ms' (rangeList_pairwise _ _) h

/-- Witness for C2: with only vpn 0 mapped, munmap over vpns 0 and 1 returns
-1, and vpn 0 (before the first unowned page 1) is left unmapped. -/
theorem munmap_partial_failure_semantics_witness :
    munmapCode (mmapSt mW msW 0 1 3).1 (mmapSt mW msW 0 1 3).2 0 8192
        = some (-1) ∧
    validTranslate (munmapSt (mmapSt mW msW 0 1 3).1 (mmapSt mW msW 0 1 3).2
        0 8192).1 (mmapSt mW msW 0 1 3).2.root 0 = false := by
  refine ⟨by decide, ?_⟩
  cases hu : MemorySet.munmap (mmapSt mW msW 0 1 3).1 (mmapSt mW msW 0 1 3).2
      0 8192 with
  | none =>
    have hsome : (MemorySet.munmap (mmapSt mW msW 0 1 3).1
        (mmapSt mW msW 0 1 3).2 0 8192).isSome = true := by decide
    rw [hu] at hsome
    exact absurd hsome (by simp)
  | some res =>
    obtain ⟨r, m2, ms2⟩ := res
    have hst : (munmapSt (mmapSt mW msW 0 1 3).1 (mmapSt mW msW 0 1 3).2
        0 8192).1 = m2 := by
      unfold munmapSt
      rw [hu]
    rw [hst]
    have hchar := munmap_partial_failure_semantics (mmapSt mW msW 0 1 3).1
      (mmapSt mW msW 0 1 3).2 0 8192 r m2 ms2 hu
    have hfind := (hchar.2.2.2.2 1 (by decide)).1 0 (by decide) (by decide)
    exact hfind

/-! ### Claim C10: munmap performs no alignment validation -/

/-- C10: munmap never validates the alignment of start: for every start and
len it is exactly the page walk over [start/4096, (start+max(len,4096)+4095)/4096)
(a misaligned start is floored to its containing page), and a -1 result can
only come from a page of that range owned by no area — never from
misalignment alone, unlike mmap. -/
theorem munmap_no_alignment_check (m : Mach) (ms : MemorySet) (start len : Nat) :
    MemorySet.munmap m ms start len =
      munmapLoop m ms (rangeList (start / 4096)
        ((start + max 4096 len + 4095) / 4096)) ∧
    (∀ r, munmapCode m ms start len = some r → r = -1 →
      ∃ v ∈ rangeList (start / 4096) ((start + max 4096 len + 4095) / 4096),
        owned ms v = false) := by
  have hclamp : (if len < 4096 then 4096 else len) = max 4096 len := by
    by_cases h46 : len < 4096
    · rw [if_pos h46, Nat.max_eq_left (by omega)]
    · rw [if_neg h46, Nat.max_eq_right (by omega)]
  have hrange : rangeList (vaFloor start)
      (vaCeil (start + (if len < 4096 then 4096 else len)))
      = rangeList (start / 4096) ((start + max 4096 len + 4095) / 4096) := by
    rw [hclamp]
    have h1 : vaFloor start = start / 4096 := rfl
    have h2 : vaCeil (start + max 4096 len)
        = (start + max 4096 len + 4095) / 4096 := by
      unfold vaCeil PAGE_SIZE
      omega
    rw [h1, h2]
  constructor
  · show munmapLoop m ms (rangeList (vaFloor start)
      (vaCeil (start + (if len < 4096 then 4096 else len)))) = _
    rw [hrange]
  · intro r h hneg
    unfold munmapCode at h
    cases hu : MemorySet.munmap m ms start len with
    | none => rw [hu] at h; exact absurd h (by simp)
    | some res =>
      obtain ⟨r2, m2, ms2⟩ := res
      rw [hu] at h
      simp only [Option.map_some', Option.some.injEq] at h
      subst h
      unfold MemorySet.munmap at hu
      have hchar := munmapLoop_char _ m ms r2 m2 ms2 (rangeList_pairwise _ _) hu
      rw [← hrange]
      exact hchar.2.2.1.mp hneg

/-- Witness for C10: a misaligned start (5) still unmaps successfully when
the covered pages are mapped. -/
theorem munmap_no_alignment_check_witness :
    pageOffset 5 ≠ 0 ∧
    MemorySet.munmap (mmapSt mW msW 0 8192 3).1 (mmapSt mW msW 0 8192 3).2 5 1
      = munmapLoop (mmapSt mW msW 0 8192 3).1 (mmapSt mW msW 0 8192 3).2
        (rangeList (5 / 4096) ((5 + max 4096 1 + 4095) / 4096)) ∧
    munmapCode (mmapSt mW msW 0 8192 3).1 (mmapSt mW msW 0 8192 3).2 5 1
      = some 0 := by
  refine ⟨by decide, ?_, by decide⟩
  exact (munmap_no_alignment_check (mmapSt mW msW 0 8192 3).1
    (mmapSt mW msW 0 8192 3).2 5 1).1

/-! ### Claim C8: translated_byte_buffer view structure -/

theorem vaFloor_mul_add (va : Nat) : vaFloor va * PAGE_SIZE + pageOffset va = va := by
  unfold vaFloor pageOffset PAGE_SIZE
  omega

theorem tbbLoop_done (m : Mach) (root fuel start stop : Nat) (hf : 0 < fuel)
    (hle : stop ≤ start) : tbbLoop m root fuel start stop = some [] := by
  cases fuel with
  | zero => omega
  | succ f =>
    unfold tbbLoop
    rw [if_neg (by omega)]

theorem tbbLoop_step (m : Mach) (root fuel start stop : Nat) (hlt : start < stop)
    (e : Nat) (ht : PageTable.translate m root (vaFloor start) = some e) :
    tbbLoop m root (fuel + 1) start stop =
      (match tbbLoop m root fuel (min ((vaFloor start + 1) * PAGE_SIZE) stop) stop with
       | none => none
       | some vs => some
          ((if pageOffset (min ((vaFloor start + 1) * PAGE_SIZE) stop) = 0 then
              (PageTableEntry.ppn e, pageOffset start, PAGE_SIZE)
            else
              (PageTableEntry.ppn e, pageOffset start,
                pageOffset (min ((vaFloor start + 1) * PAGE_SIZE) stop))) :: vs)) := by
  rw [show tbbLoop m root (fuel + 1) start stop =
      (if start < stop then
        match PageTable.translate m root (vaFloor start) with
        | none => none
        | some e =>
            match tbbLoop m root fuel (min ((vaFloor start + 1) * PAGE_SIZE) stop) stop with
            | none => none
            | some vs => some
                ((if pageOffset (min ((vaFloor start + 1) * PAGE_SIZE) stop) = 0 then
                    (PageTableEntry.ppn e, pageOffset start, PAGE_SIZE)
                  else
                    (PageTableEntry.ppn e, pageOffset start,
                      pageOffset (min ((vaFloor start + 1) * PAGE_SIZE) stop))) :: vs)
      else some []) from rfl]
  rw [if_pos hlt, ht]

/-- C8: for a mapped range, translated_byte_buffer over a positive length
lying entirely inside one page returns exactly one view of exactly that
length; over a length that exactly spans two pages it returns exactly two
views whose lengths sum to the requested length, the first ending at the
source page boundary (byte 4096 of its page). -/
theorem translated_byte_buffer_views (m : Mach) (token ptr len : Nat)
    (h1t : (PageTable.translate m (token &&& (2 ^ 44 - 1)) (vaFloor ptr)).isSome
      = true) :
    (0 < len → pageOffset ptr + len ≤ 4096 →
      ∃ v : Nat × Nat × Nat, translated_byte_buffer m token ptr len = some [v] ∧
        v.2.2 - v.2.1 = len) ∧
    ((PageTable.translate m (token &&& (2 ^ 44 - 1)) (vaFloor ptr + 1)).isSome
        = true →
      4096 < pageOffset ptr + len → pageOffset ptr + len ≤ 8192 →
      ∃ v1 v2 : Nat × Nat × Nat,
        translated_byte_buffer m token ptr len = some [v1, v2] ∧
        v1.2.2 = PAGE_SIZE ∧
        (v1.2.2 - v1.2.1) + (v2.2.2 - v2.2.1) = len) := by
  set root := token &&& (2 ^ 44 - 1) with hroot
  obtain ⟨e1, he1⟩ := Option.isSome_iff_exists.mp h1t
  have hsplit := vaFloor_mul_add ptr
  have hofflt : pageOffset ptr < 4096 := Nat.mod_lt _ (by decide)
  constructor
  · intro hpos hfit
    unfold translated_byte_buffer
    rw [← hroot]
    have hlen1 : len + 1 = len + 1 := rfl
    rw [tbbLoop_step m root len ptr (ptr + len) (by omega) e1 he1]
    have hmin : min ((vaFloor ptr + 1) * PAGE_SIZE) (ptr + len) = ptr + len := by
      unfold PAGE_SIZE at hsplit ⊢
      omega
    rw [hmin]
    rw [tbbLoop_done m root len (ptr + len) (ptr + len) (by omega) (by omega)]
    by_cases hz : pageOffset (ptr + len) = 0
    · rw [if_pos hz]
      refine ⟨_, rfl, ?_⟩
      simp only
      unfold pageOffset PAGE_SIZE at hz hofflt ⊢
      unfold PAGE_SIZE at hsplit
      omega
    · rw [if_neg hz]
      refine ⟨_, rfl, ?_⟩
      simp only
      unfold pageOffset PAGE_SIZE at hz hofflt ⊢
      unfold PAGE_SIZE at hsplit
      omega
  · intro h2t hcross hfit
    obtain ⟨e2, he2⟩ := Option.isSome_iff_exists.mp h2t
    unfold translated_byte_buffer
    rw [← hroot]
    have hlen2 : 2 ≤ len := by
      unfold pageOffset PAGE_SIZE at hcross hofflt
      omega
    rw [tbbLoop_step m root len ptr (ptr + len) (by omega) e1 he1]
    have hmin1 : min ((vaFloor ptr + 1) * PAGE_SIZE) (ptr + len)
        = (vaFloor ptr + 1) * PAGE_SIZE := by
      unfold PAGE_SIZE at hsplit ⊢
      unfold pageOffset PAGE_SIZE at hcross
      omega
    rw [hmin1]
    have hb : pageOffset ((vaFloor ptr + 1) * PAGE_SIZE) = 0 := by
      unfold pageOffset PAGE_SIZE
      omega
    rw [if_pos hb]
    obtain ⟨lenm, rfl⟩ : ∃ lenm, len = lenm + 1 := ⟨len - 1, by omega⟩
    rw [tbbLoop_step m root lenm ((vaFloor ptr + 1) * PAGE_SIZE) (ptr + (lenm + 1))
      (by unfold PAGE_SIZE at hsplit ⊢; unfold pageOffset PAGE_SIZE at hfit hcross; omega)
      e2 (by rw [vaFloor_page_mul]; exact he2)]
    have hf2 : vaFloor ((vaFloor ptr + 1) * PAGE_SIZE) = vaFloor ptr + 1 :=
      vaFloor_page_mul _
    rw [hf2]
    have hmin2 : min ((vaFloor ptr + 1 + 1) * PAGE_SIZE) (ptr + (lenm + 1))
        = ptr + (lenm + 1) := by
      unfold PAGE_SIZE at hsplit ⊢
      unfold pageOffset PAGE_SIZE at hfit
      omega
    rw [hmin2]
    rw [tbbLoop_done m root lenm (ptr + (lenm + 1)) (ptr + (lenm + 1))
      (by omega) (by omega)]
    by_cases hz : pageOffset (ptr + (lenm + 1)) = 0
    · rw [if_pos hz]
      refine ⟨_, _, rfl, rfl, ?_⟩
      simp only
      unfold pageOffset PAGE_SIZE at hz hofflt hcross hfit ⊢
      unfold PAGE_SIZE at hsplit
      omega
    · rw [if_neg hz]
      refine ⟨_, _, rfl, rfl, ?_⟩
      simp only
      unfold pageOffset PAGE_SIZE at hz hofflt hcross hfit ⊢
      unfold PAGE_SIZE at hsplit
      omega

/-- Witness for C8: on the fixture with vpns 0 and 1 mapped, a 10-byte read
inside page 0 yields one view of length 10, and a 4096-byte read starting at
offset 100 yields two views of lengths 3996 and 100. -/
theorem translated_byte_buffer_views_witness :
    translated_byte_buffer (mmapSt mW msW 0 8192 3).1 (8 <<< 60 ||| 0) 20 10
      = some [(1, 20, 30)] ∧
    ∃ v1 v2 : Nat × Nat × Nat,
      translated_byte_buffer (mmapSt mW msW 0 8192 3).1 (8 <<< 60 ||| 0) 100 4096
        = some [v1, v2] ∧ v1.2.2 = PAGE_SIZE ∧
        (v1.2.2 - v1.2.1) + (v2.2.2 - v2.2.1) = 4096 := by
  constructor
  · obtain ⟨v, hv, hlen⟩ := (translated_byte_buffer_views (mmapSt mW msW 0 8192 3).1
      (8 <<< 60 ||| 0) 20 10 (by decide)).1 (by decide) (by decide)
    rw [hv]
    rw [show v = (1, 20, 30) by
      have : translated_byte_buffer (mmapSt mW msW 0 8192 3).1 (8 <<< 60 ||| 0) 20 10
          = some [(1, 20, 30)] := by decide
      rw [this] at hv
      simp only [Option.some.injEq, List.cons.injEq] at hv
      exact hv.1.symm]
  · exact (translated_byte_buffer_views (mmapSt mW msW 0 8192 3).1
      (8 <<< 60 ||| 0) 100 4096 (by decide)).2 (by decide) (by decide) (by decide)

/-! ### Claim C5 (corrected): from_elf with a bad magic fails after the
trampoline page is mapped -/

/-- Counterexample to C5 as stated: on a concrete all-zero image the magic
assertion fails (fatal invalid-image condition), yet at that point of failure
a page of the new address space's table — the trampoline page — is already
mapped and translates to a valid entry, contradicting the claim that no page
is mapped at the point of failure. -/
theorem from_elf_bad_magic_counterexample :
    fromElfStageSnd mW 4096 [0, 0, 0, 0] = some false ∧
    validTranslate (fromElfStageSt mW 4096 [0, 0, 0, 0]).1
      (fromElfStageSt mW 4096 [0, 0, 0, 0]).2.root (vaFloor TRAMPOLINE) = true := by
  decide

/-- C5 (amended): from_elf on a byte sequence whose first four bytes are not
the ELF magic fails (fatal) at the magic assertion before mapping any region
or segment — the region list is still empty — but the trampoline page has
already been mapped by then, so exactly one page of the new address space's
table is mapped (the trampoline) at the point of failure. -/
theorem from_elf_bad_magic (m : Mach) (strampoline : Nat) (elfData : List Nat)
    (m2 : Mach) (ms : MemorySet)
    (h : MemorySet.from_elf_magic_stage m strampoline elfData
      = some ((m2, ms), false)) :
    elfData.take 4 ≠ ELF_MAGIC ∧ ms.areas = [] ∧
    validTranslate m2 ms.root (vaFloor TRAMPOLINE) = true := by
  unfold MemorySet.from_elf_magic_stage at h
  cases hnb : MemorySet.new_bare m with
  | none => rw [hnb] at h; exact absurd h (by simp)
  | some p =>
    obtain ⟨m1, ms1⟩ := p
    rw [hnb] at h
    simp only at h
    cases htr : MemorySet.map_trampoline m1 ms1 strampoline with
    | none => rw [htr] at h; exact absurd h (by simp)
    | some mt =>
      rw [htr] at h
      simp only [Option.some.injEq, Prod.mk.injEq] at h
      obtain ⟨⟨rfl, rfl⟩, hmagic⟩ := h
      have hms : ms1.areas = [] := by
        unfold MemorySet.new_bare at hnb
        cases hal : frameAlloc m with
        | none => rw [hal] at hnb; exact absurd hnb (by simp)
        | some fm =>
          rw [hal] at hnb
          simp only [Option.map_some', Option.some.injEq, Prod.mk.injEq] at hnb
          rw [← hnb.2]
      refine ⟨?_, hms, ?_⟩
      · intro hcon
        rw [show (elfData.take 4 == ELF_MAGIC) = true from beq_iff_eq.mpr hcon]
          at hmagic
        exact absurd hmagic (by simp)
      · unfold MemorySet.map_trampoline at htr
        obtain ⟨⟨P, I, hfp, hval, -, -⟩, -, -⟩ :=
          PageTable.map_some m1 ms1.root (vaFloor TRAMPOLINE)
            (vaFloor strampoline) 0b1010 mt htr
        unfold validTranslate PageTable.translate
        rw [hfp]
        simp only [Option.map_some']
        rw [hval]
        exact PageTableEntry.is_valid_new_or_one _ _

/-- Witness for the amended C5 at a concrete bad-magic image. -/
theorem from_elf_bad_magic_witness :
    fromElfStageSnd mW 8192 [1, 2, 3, 4] = some false ∧
    (fromElfStageSt mW 8192 [1, 2, 3, 4]).2.areas = [] ∧
    validTranslate (fromElfStageSt mW 8192 [1, 2, 3, 4]).1
      (fromElfStageSt mW 8192 [1, 2, 3, 4]).2.root (vaFloor TRAMPOLINE) = true := by
  refine ⟨by decide, ?_, ?_⟩ <;>
  · cases hst : MemorySet.from_elf_magic_stage mW 8192 [1, 2, 3, 4] with
    | none =>
      have hsome : (MemorySet.from_elf_magic_stage mW 8192 [1, 2, 3, 4]).isSome
          = true := by decide
      rw [hst] at hsome
      exact absurd hsome (by simp)
    | some stb =>
      obtain ⟨⟨m2, ms⟩, b⟩ := stb
      have hb : b = false := by
        have : fromElfStageSnd mW 8192 [1, 2, 3, 4] = some false := by decide
        unfold fromElfStageSnd at this
        rw [hst] at this
        simp only [Option.map_some', Option.some.injEq] at this
        exact this
      subst hb
      have hproj : fromElfStageSt mW 8192 [1, 2, 3, 4] = (m2, ms) := by
        unfold fromElfStageSt
        rw [hst]
      have h := from_elf_bad_magic mW 8192 [1, 2, 3, 4] m2 ms hst
      rw [hproj]
      first
        | exact h.2.1
        | exact h.2.2

/-! ### Claim C1: a successful mmap maps the whole range with port-derived
flags -/

theorem perm_testBits (port : Nat) :
    ((((port &&& 7) * 2 + 16) ||| 1).testBit 1 = port.testBit 0 ∧
     (((port &&& 7) * 2 + 16) ||| 1).testBit 2 = port.testBit 1 ∧
     (((port &&& 7) * 2 + 16) ||| 1).testBit 3 = port.testBit 2) ∧
    (((port &&& 7) * 2 + 16) ||| 1).testBit 4 = true := by
  have hlt : port &&& 7 < 8 := by
    rw [show (7 : Nat) = 2 ^ 3 - 1 by norm_num, Nat.and_pow_two_sub_one_eq_mod]
    exact Nat.mod_lt _ (by norm_num)
  have hrw : (port &&& 7) * 2 + 16 = 2 ^ 4 * 1 + (port &&& 7) * 2 := by omega
  have hshift : (port &&& 7) * 2 = (port &&& 7) <<< 1 := by
    rw [Nat.shiftLeft_eq]
  have hand : ∀ j, j < 3 → (port &&& 7).testBit j = port.testBit j := by
    intro j hj
    rw [Nat.testBit_land]
    have h7 : (7 : Nat).testBit j = true := by interval_cases j <;> decide
    rw [h7, Bool.and_true]
  have key : ∀ k, 1 ≤ k → k < 4 →
      ((((port &&& 7) * 2 + 16) ||| 1).testBit k = port.testBit (k - 1)) := by
    intro k h1 h4
    rw [Nat.testBit_lor, show (1 : Nat).testBit k = false by
      apply Nat.testBit_lt_two_pow
      calc (1 : Nat) < 2 ^ 1 := by norm_num
      _ ≤ 2 ^ k := Nat.pow_le_pow_right (by omega) h1, Bool.or_false]
    rw [hrw, Nat.testBit_mul_pow_two_add _ (by omega), if_pos h4, hshift,
      Nat.testBit_shiftLeft]
    rw [show decide (k ≥ 1) = true by simpa using h1, Bool.true_and]
    exact hand (k - 1) (by omega)
  refine ⟨⟨key 1 (by omega) (by omega), key 2 (by omega) (by omega),
    key 3 (by omega) (by omega)⟩, ?_⟩
  rw [Nat.testBit_lor, show (1 : Nat).testBit 4 = false by decide, Bool.or_false]
  rw [hrw, Nat.testBit_mul_pow_two_add _ (by omega), if_neg (by omega)]
  decide

/-- C1: for every page-aligned start, len ≥ 1 and valid port, if mmap
returns 0 then every virtual page of [start/4096,
(start + max(len, 4096) + 4095)/4096) translates in the resulting state to a
valid page-table entry whose R/W/X flag bits (bits 1-3) equal port bits 0-2
and whose User-accessible bit (bit 4) is set. -/
theorem mmap_zero_maps_range (m : Mach) (ms : MemorySet) (start len port : Nat)
    (m' : Mach) (ms' : MemorySet)
    (hal : pageOffset start = 0) (hlen : 1 ≤ len)
    (hp1 : port &&& 0xfffffffffffffff8 = 0) (hp2 : port &&& 0x7 ≠ 0)
    (h : MemorySet.mmap m ms start len port = some (0, m', ms')) :
    ∀ v, start / 4096 ≤ v → v < (start + max len 4096 + 4095) / 4096 →
      ∃ e, PageTable.translate m' ms.root v = some e ∧
        PageTableEntry.is_valid e = true ∧
        e.testBit 1 = port.testBit 0 ∧ e.testBit 2 = port.testBit 1 ∧
        e.testBit 3 = port.testBit 2 ∧ e.testBit 4 = true := by
  intro v hvlo hvhi
  obtain ⟨-, -, -, -, a', hmr, -⟩ := MemorySet.mmap_zero_parts m ms start len port
    m' ms' h
  have hclamp : (if len < 4096 then 4096 else len) = max len 4096 := by
    by_cases h46 : len < 4096
    · rw [if_pos h46, Nat.max_eq_right (by omega)]
    · rw [if_neg h46, Nat.max_eq_left (by omega)]
  have hceil : vaCeil (start + (if len < 4096 then 4096 else len))
      = (start + max len 4096 + 4095) / 4096 := by
    rw [hclamp]
    unfold vaCeil PAGE_SIZE
    omega
  have hmem : v ∈ rangeList (vaFloor start)
      (vaCeil (start + (if len < 4096 then 4096 else len))) := by
    rw [mem_rangeList, hceil]
    exact ⟨hvlo, hvhi⟩
  obtain ⟨-, htrans, -, -, -, -, -⟩ :=
    MapArea.mapRange_some ms.root _ m _ m' a' hmr rfl
  obtain ⟨p, P, I, hfp, hval⟩ := htrans v hmem
  have hperm : (MapArea.new start
      (vaCeil (start + (if len < 4096 then 4096 else len)) * PAGE_SIZE)
      MapType.Framed ((port &&& 7) * 2 + 16)).mapPerm = (port &&& 7) * 2 + 16 := rfl
  rw [hperm] at hval
  refine ⟨PageTableEntry.new p (((port &&& 7) * 2 + 16) ||| 1), ?_, ?_, ?_, ?_, ?_, ?_⟩
  · unfold PageTable.translate
    rw [hfp]
    simp only [Option.map_some']
    rw [hval]
  · exact PageTableEntry.is_valid_new_or_one _ _
  · rw [PageTableEntry.testBit_new_lt _ _ _ (by omega)]
    exact (perm_testBits port).1.1
  · rw [PageTableEntry.testBit_new_lt _ _ _ (by omega)]
    exact (perm_testBits port).1.2.1
  · rw [PageTableEntry.testBit_new_lt _ _ _ (by omega)]
    exact (perm_testBits port).1.2.2
  · rw [PageTableEntry.testBit_new_lt _ _ _ (by omega)]
    exact (perm_testBits port).2

/-- Witness for C1: mmap of two pages at start 4096 with port 0b011 returns 0
and both pages translate with R, W set, X clear, U set. -/
theorem mmap_zero_maps_range_witness :
    (MemorySet.mmap mW msW 4096 8192 3).isSome = true ∧
    validTranslate (mmapSt mW msW 4096 8192 3).1 msW.root 1 = true ∧
    validTranslate (mmapSt mW msW 4096 8192 3).1 msW.root 2 = true := by
  refine ⟨by decide, ?_, ?_⟩ <;>
  · cases hmm : MemorySet.mmap mW msW 4096 8192 3 with
    | none =>
      have hsome : (MemorySet.mmap mW msW 4096 8192 3).isSome = true := by decide
      rw [hmm] at hsome
      exact absurd hsome (by simp)
    | some res =>
      obtain ⟨r, m', ms'⟩ := res
      have hr : r = 0 := by
        have : mmapCode mW msW 4096 8192 3 = some 0 := by decide
        unfold mmapCode at this
        rw [hmm] at this
        simp only [Option.map_some', Option.some.injEq] at this
        exact this
      subst hr
      have hproj : (mmapSt mW msW 4096 8192 3).1 = m' := by
        unfold mmapSt
        rw [hmm]
      have h := mmap_zero_maps_range mW msW 4096 8192 3 m' ms' (by decide)
        (by omega) (by decide) (by decide) hmm
      rw [hproj]
      unfold validTranslate
      first
        | (obtain ⟨e, hte, hve, -⟩ := h 1 (by omega) (by decide)
           rw [hte]
           exact hve)
        | (obtain ⟨e, hte, hve, -⟩ := h 2 (by omega) (by decide)
           rw [hte]
           exact hve)

/-! ### Well-formedness machinery for the radix tree -/

theorem lvl1_lt_next (m : Mach) (root T : Nat) (hW : WF m root)
    (h : lvl1 m root T) : T < m.next := by
  obtain ⟨i, hi, hv, hp⟩ := h
  rw [← hp]
  exact hW.closed1 i hi hv

theorem lvl2_lt_next (m : Mach) (root T : Nat) (hW : WF m root)
    (h : lvl2 m root T) : T < m.next := by
  obtain ⟨T1, h1, i, hi, hv, hp⟩ := h
  rw [← hp]
  exact hW.closed2 T1 h1 i hi hv

theorem find_pte_lvl2 (m : Mach) (root v P I : Nat)
    (hfp : PageTable.find_pte m root v = some (P, I)) : lvl2 m root P := by
  obtain ⟨h0, h1, hP, hI⟩ := PageTable.find_pte_some m root v P I hfp
  exact ⟨PageTableEntry.ppn (readPTE m root (vpnIdx0 v)),
    ⟨vpnIdx0 v, vpnIdx0_lt v, h0, rfl⟩, vpnIdx1 v, vpnIdx1_lt v, h1, hP.symm⟩

theorem lvl1_write_other (m : Mach) (root T2 i val : Nat) (hroot : T2 ≠ root) :
    ∀ T, lvl1 (writePTE m T2 i val) root T ↔ lvl1 m root T := by
  intro T
  unfold lvl1
  have hr : ∀ j, readPTE (writePTE m T2 i val) root j = readPTE m root j := by
    intro j
    rw [readPTE_writePTE, if_neg (by intro hcon; exact hroot hcon.1.symm)]
  constructor
  · rintro ⟨j, hj, hv, hp⟩
    rw [hr] at hv hp
    exact ⟨j, hj, hv, hp⟩
  · rintro ⟨j, hj, hv, hp⟩
    exact ⟨j, hj, by rw [hr]; exact hv, by rw [hr]; exact hp⟩

theorem WF_write_lvl2 (m : Mach) (root T2 i val : Nat) (hW : WF m root)
    (h2 : lvl2 m root T2) :
    WF (writePTE m T2 i val) root ∧
    (∀ T, lvl1 (writePTE m T2 i val) root T ↔ lvl1 m root T) ∧
    (∀ T, lvl2 (writePTE m T2 i val) root T ↔ lvl2 m root T) := by
  obtain ⟨hNot1, hNotRoot⟩ := hW.disj12 T2 h2
  have hT2lt : T2 < m.next := lvl2_lt_next m root T2 hW h2
  have hl1 := lvl1_write_other m root T2 i val hNotRoot
  have hrowPres : ∀ T, T ≠ T2 → ∀ j,
      readPTE (writePTE m T2 i val) T j = readPTE m T j := by
    intro T hT j
    rw [readPTE_writePTE, if_neg (by intro hcon; exact hT hcon.1)]
  have hl2 : ∀ T, lvl2 (writePTE m T2 i val) root T ↔ lvl2 m root T := by
    intro T
    unfold lvl2
    constructor
    · rintro ⟨T1, hT1, j, hj, hv, hp⟩
      rw [hl1] at hT1
      have hT1ne : T1 ≠ T2 := fun hcon => hNot1 (hcon ▸ hT1)
      rw [hrowPres T1 hT1ne] at hv hp
      exact ⟨T1, hT1, j, hj, hv, hp⟩
    · rintro ⟨T1, hT1, j, hj, hv, hp⟩
      have hT1ne : T1 ≠ T2 := fun hcon => hNot1 (hcon ▸ hT1)
      exact ⟨T1, (hl1 T1).mpr hT1, j, hj, by rw [hrowPres T1 hT1ne]; exact hv,
        by rw [hrowPres T1 hT1ne]; exact hp⟩
  refine ⟨⟨?_, ?_, ?_, ?_, ?_, ?_⟩, hl1, hl2⟩
  · exact hW.rootLt
  · intro p j hp
    rw [writePTE_next] at hp
    show (if p = T2 ∧ j = i then val else m.mem p j) = 0
    rw [if_neg (by intro hcon; omega)]
    exact hW.fresh p j hp
  · intro j hj hv
    rw [hrowPres root (Ne.symm hNotRoot)] at hv ⊢
    exact hW.closed1 j hj hv
  · intro T hT j hj hv
    rw [hl1] at hT
    have hTne : T ≠ T2 := fun hcon => hNot1 (hcon ▸ hT)
    rw [hrowPres T hTne] at hv ⊢
    exact hW.closed2 T hT j hj hv
  · intro hcon
    exact hW.rootNot1 ((hl1 root).mp hcon)
  · intro T hT
    rw [hl2] at hT
    obtain ⟨hn1, hnr⟩ := hW.disj12 T hT
    exact ⟨fun hcon => hn1 ((hl1 T).mp hcon), hnr⟩

theorem find_pte_write_lvl2 (m : Mach) (root T2 i val w Q J : Nat) (hW : WF m root)
    (h2 : lvl2 m root T2) (hfp : PageTable.find_pte m root w = some (Q, J))
    (hne : ¬(Q = T2 ∧ J = i)) :
    PageTable.find_pte (writePTE m T2 i val) root w = some (Q, J) ∧
    readPTE (writePTE m T2 i val) Q J = readPTE m Q J := by
  obtain ⟨hNot1, hNotRoot⟩ := hW.disj12 T2 h2
  obtain ⟨h0, h1, hQ, hJ⟩ := PageTable.find_pte_some m root w Q J hfp
  have e0eq : readPTE (writePTE m T2 i val) root (vpnIdx0 w)
      = readPTE m root (vpnIdx0 w) := by
    rw [readPTE_writePTE, if_neg (by intro hcon; exact hNotRoot hcon.1.symm)]
  have hp1lvl : lvl1 m root (PageTableEntry.ppn (readPTE m root (vpnIdx0 w))) :=
    ⟨vpnIdx0 w, vpnIdx0_lt w, h0, rfl⟩
  have hp1ne : PageTableEntry.ppn (readPTE m root (vpnIdx0 w)) ≠ T2 :=
    fun hcon => hNot1 (hcon ▸ hp1lvl)
  have e1eq : readPTE (writePTE m T2 i val)
      (PageTableEntry.ppn (readPTE m root (vpnIdx0 w))) (vpnIdx1 w)
      = readPTE m (PageTableEntry.ppn (readPTE m root (vpnIdx0 w))) (vpnIdx1 w) := by
    rw [readPTE_writePTE, if_neg (by intro hcon; exact hp1ne hcon.1)]
  refine ⟨?_, ?_⟩
  · rw [PageTable.find_pte_eq (writePTE m T2 i val) root w
      (by rw [e0eq]; exact h0) (by rw [e0eq, e1eq]; exact h1)]
    rw [e0eq, e1eq, ← hQ, ← hJ]
  · rw [readPTE_writePTE, if_neg hne]

theorem validTranslate_iff (m : Mach) (root v : Nat) :
    validTranslate m root v = true ↔
      ∃ P I, PageTable.find_pte m root v = some (P, I) ∧
        PageTableEntry.is_valid (readPTE m P I) = true := by
  unfold validTranslate PageTable.translate
  cases hfp : PageTable.find_pte m root v with
  | none =>
    simp only [Option.map_none']
    constructor
    · intro hcon
      exact absurd hcon (by simp)
    · rintro ⟨P, I, hq, -⟩
      exact absurd hq (by simp)
  | some pi =>
    obtain ⟨P, I⟩ := pi
    simp only [Option.map_some']
    constructor
    · intro hv
      exact ⟨P, I, rfl, hv⟩
    · rintro ⟨P2, I2, hq, hv⟩
      simp only [Option.some.injEq, Prod.mk.injEq] at hq
      obtain ⟨rfl, rfl⟩ := hq
      exact hv

theorem PageTableEntry.is_valid_new_ptr (f : Nat) :
    PageTableEntry.is_valid (PageTableEntry.new f 1) = true := by
  rw [PageTableEntry.is_valid_new]
  decide

theorem WF_alloc (m : Mach) (root f : Nat) (mAl : Mach) (hW : WF m root)
    (hal : frameAlloc m = some (f, mAl)) : WF mAl root := by
  obtain ⟨hf, hlt, hmem, hnext⟩ := frameAlloc_some m f mAl hal
  obtain ⟨mem', next'⟩ := mAl
  simp only at hmem hnext
  subst hmem
  subst hnext
  refine ⟨Nat.lt_succ_of_lt hW.rootLt, ?_, ?_, ?_, hW.rootNot1, hW.disj12⟩
  · intro p i hp
    exact hW.fresh p i (by simp at hp; omega)
  · intro i hi hv
    exact Nat.lt_succ_of_lt (hW.closed1 i hi hv)
  · intro T hT i hi hv
    exact Nat.lt_succ_of_lt (hW.closed2 T hT i hi hv)

theorem WF_createStep_root (m : Mach) (root v : Nat) (mA : Mach) (p1 : Nat)
    (hW : WF m root) (hs : PageTable.createStep m root (vpnIdx0 v) = some (mA, p1)) :
    WF mA root ∧ lvl1 mA root p1 := by
  unfold PageTable.createStep at hs
  by_cases hv : PageTableEntry.is_valid (readPTE m root (vpnIdx0 v)) = true
  · rw [if_pos hv] at hs
    simp only [Option.some.injEq, Prod.mk.injEq] at hs
    obtain ⟨rfl, rfl⟩ := hs
    exact ⟨hW, vpnIdx0 v, vpnIdx0_lt v, hv, rfl⟩
  · rw [if_neg hv] at hs
    cases hal : frameAlloc m with
    | none => rw [hal] at hs; exact absurd hs (by simp)
    | some fm =>
      obtain ⟨f, mAl⟩ := fm
      rw [hal] at hs
      simp only [Option.some.injEq, Prod.mk.injEq] at hs
      obtain ⟨rfl, rfl⟩ := hs
      obtain ⟨hf, hlt, hmem, hnext⟩ := frameAlloc_some m f mAl hal
      subst hf
      obtain ⟨mem', next'⟩ := mAl
      simp only at hmem hnext
      subst hmem
      subst hnext
      have hppn : PageTableEntry.ppn (PageTableEntry.new m.next 1) = m.next :=
        PageTableEntry.ppn_new_of_lt m.next 1 hlt (by omega)
      have hreadA : ∀ q j, readPTE (writePTE ⟨m.mem, m.next + 1⟩ root (vpnIdx0 v)
          (PageTableEntry.new m.next 1)) q j
          = if q = root ∧ j = vpnIdx0 v then PageTableEntry.new m.next 1
            else m.mem q j := by
        intro q j
        rw [readPTE_writePTE]
        rfl
      have hl1A : ∀ T, lvl1 (writePTE ⟨m.mem, m.next + 1⟩ root (vpnIdx0 v)
          (PageTableEntry.new m.next 1)) root T ↔ (lvl1 m root T ∨ T = m.next) := by
        intro T
        unfold lvl1
        constructor
        · rintro ⟨j, hj, hval, hp⟩
          rw [hreadA] at hval hp
          by_cases hji : root = root ∧ j = vpnIdx0 v
          · rw [if_pos hji] at hp
            rw [hppn] at hp
            exact Or.inr hp.symm
          · rw [if_neg hji] at hval hp
            exact Or.inl ⟨j, hj, hval, hp⟩
        · rintro (⟨j, hj, hval, hp⟩ | rfl)
          · have hji : ¬(root = root ∧ j = vpnIdx0 v) := by
              intro hcon
              rw [hcon.2] at hval
              exact hv hval
            exact ⟨j, hj, by rw [hreadA, if_neg hji]; exact hval,
              by rw [hreadA, if_neg hji]; exact hp⟩
          · exact ⟨vpnIdx0 v, vpnIdx0_lt v,
              by rw [hreadA, if_pos ⟨rfl, rfl⟩]; exact PageTableEntry.is_valid_new_ptr _,
              by rw [hreadA, if_pos ⟨rfl, rfl⟩]; exact hppn⟩
      have hFreshRow : ∀ j, readPTE (writePTE ⟨m.mem, m.next + 1⟩ root (vpnIdx0 v)
          (PageTableEntry.new m.next 1)) m.next j = 0 := by
        intro j
        rw [hreadA, if_neg (by intro hcon; have := hW.rootLt; omega)]
        exact hW.fresh m.next j (Nat.le_refl _)
      have hl2A : ∀ T, lvl2 (writePTE ⟨m.mem, m.next + 1⟩ root (vpnIdx0 v)
          (PageTableEntry.new m.next 1)) root T → lvl2 m root T := by
        rintro T ⟨T1, hT1, j, hj, hval, hp⟩
        rcases (hl1A T1).mp hT1 with h1m | rfl
        · have hT1root : T1 ≠ root := by
            intro hcon
            exact hW.rootNot1 (hcon ▸ h1m)
          rw [hreadA, if_neg (by intro hcon; exact hT1root hcon.1)] at hval hp
          exact ⟨T1, h1m, j, hj, hval, hp⟩
        · rw [hFreshRow] at hval
          rw [PageTableEntry.is_valid_zero] at hval
          exact absurd hval (by simp)
      refine ⟨⟨?_, ?_, ?_, ?_, ?_, ?_⟩, ?_⟩
      · exact Nat.lt_succ_of_lt hW.rootLt
      · intro p i hp
        rw [writePTE_next] at hp
        simp only at hp
        show readPTE (writePTE ⟨m.mem, m.next + 1⟩ root (vpnIdx0 v)
          (PageTableEntry.new m.next 1)) p i = 0
        rw [hreadA, if_neg (by intro hcon; have := hW.rootLt; omega)]
        exact hW.fresh p i (by omega)
      · intro i hi hval
        show PageTableEntry.ppn (readPTE (writePTE ⟨m.mem, m.next + 1⟩ root
          (vpnIdx0 v) (PageTableEntry.new m.next 1)) root i) < m.next + 1
        rw [hreadA] at hval ⊢
        by_cases hji : i = vpnIdx0 v
        · rw [if_pos ⟨rfl, hji⟩]
          rw [hppn]
          omega
        · rw [if_neg (by intro hcon; exact hji hcon.2)] at hval ⊢
          exact Nat.lt_succ_of_lt (hW.closed1 i hi hval)
      · intro T hT i hi hval
        show PageTableEntry.ppn (readPTE (writePTE ⟨m.mem, m.next + 1⟩ root
          (vpnIdx0 v) (PageTableEntry.new m.next 1)) T i) < m.next + 1
        rcases (hl1A T).mp hT with h1m | rfl
        · have hTroot : T ≠ root := by
            intro hcon
            exact hW.rootNot1 (hcon ▸ h1m)
          rw [hreadA, if_neg (by intro hcon; exact hTroot hcon.1)] at hval ⊢
          exact Nat.lt_succ_of_lt (hW.closed2 T h1m i hi hval)
        · rw [hFreshRow] at hval
          rw [PageTableEntry.is_valid_zero] at hval
          exact absurd hval (by simp)
      · intro hcon
        rcases (hl1A root).mp hcon with h1m | hroot
        · exact hW.rootNot1 h1m
        · have := hW.rootLt
          omega
      · intro T hT
        have hTm := hl2A T hT
        obtain ⟨hn1, hnr⟩ := hW.disj12 T hTm
        refine ⟨?_, hnr⟩
        intro hcon
        rcases (hl1A T).mp hcon with h1m | rfl
        · exact hn1 h1m
        · have := lvl2_lt_next m root _ hW hTm
          omega
      · exact (hl1A _).mpr (Or.inr hppn)

theorem WF_createStep_lvl1 (m : Mach) (root v T1 : Nat) (mB : Mach) (p2 : Nat)
    (hW : WF m root) (h1 : lvl1 m root T1)
    (hs : PageTable.createStep m T1 (vpnIdx1 v) = some (mB, p2)) :
    WF mB root ∧ lvl2 mB root p2 := by
  unfold PageTable.createStep at hs
  by_cases hv : PageTableEntry.is_valid (readPTE m T1 (vpnIdx1 v)) = true
  · rw [if_pos hv] at hs
    simp only [Option.some.injEq, Prod.mk.injEq] at hs
    obtain ⟨rfl, rfl⟩ := hs
    exact ⟨hW, T1, h1, vpnIdx1 v, vpnIdx1_lt v, hv, rfl⟩
  · rw [if_neg hv] at hs
    cases hal : frameAlloc m with
    | none => rw [hal] at hs; exact absurd hs (by simp)
    | some fm =>
      obtain ⟨f, mAl⟩ := fm
      rw [hal] at hs
      simp only [Option.some.injEq, Prod.mk.injEq] at hs
      obtain ⟨rfl, rfl⟩ := hs
      obtain ⟨hf, hlt, hmem, hnext⟩ := frameAlloc_some m f mAl hal
      subst hf
      obtain ⟨mem', next'⟩ := mAl
      simp only at hmem hnext
      subst hmem
      subst hnext
      have hppn : PageTableEntry.ppn (PageTableEntry.new m.next 1) = m.next :=
        PageTableEntry.ppn_new_of_lt m.next 1 hlt (by omega)
      have hT1root : T1 ≠ root := by
        intro hcon
        exact hW.rootNot1 (hcon ▸ h1)
      have hT1lt : T1 < m.next := lvl1_lt_next m root T1 hW h1
      have hreadB : ∀ q j, readPTE (writePTE ⟨m.mem, m.next + 1⟩ T1 (vpnIdx1 v)
          (PageTableEntry.new m.next 1)) q j
          = if q = T1 ∧ j = vpnIdx1 v then PageTableEntry.new m.next 1
            else m.mem q j := by
        intro q j
        rw [readPTE_writePTE]
        rfl
      have hl1B : ∀ T, lvl1 (writePTE ⟨m.mem, m.next + 1⟩ T1 (vpnIdx1 v)
          (PageTableEntry.new m.next 1)) root T ↔ lvl1 m root T := by
        intro T
        unfold lvl1
        constructor
        · rintro ⟨j, hj, hval, hp⟩
          rw [hreadB, if_neg (by intro hcon; exact hT1root hcon.1.symm)] at hval hp
          exact ⟨j, hj, hval, hp⟩
        · rintro ⟨j, hj, hval, hp⟩
          exact ⟨j, hj,
            by rw [hreadB, if_neg (by intro hcon; exact hT1root hcon.1.symm)]; exact hval,
            by rw [hreadB, if_neg (by intro hcon; exact hT1root hcon.1.symm)]; exact hp⟩
      have hFreshRow : ∀ j, readPTE (writePTE ⟨m.mem, m.next + 1⟩ T1 (vpnIdx1 v)
          (PageTableEntry.new m.next 1)) m.next j = 0 := by
        intro j
        rw [hreadB, if_neg (by intro hcon; omega)]
        exact hW.fresh m.next j (Nat.le_refl _)
      have hl2B : ∀ T, lvl2 (writePTE ⟨m.mem, m.next + 1⟩ T1 (vpnIdx1 v)
          (PageTableEntry.new m.next 1)) root T → (lvl2 m root T ∨ T = m.next) := by
        rintro T ⟨Ta, hTa, j, hj, hval, hp⟩
        have hTam := (hl1B Ta).mp hTa
        by_cases hji : Ta = T1 ∧ j = vpnIdx1 v
        · rw [hreadB, if_pos hji] at hp
          rw [hppn] at hp
          exact Or.inr hp.symm
        · rw [hreadB, if_neg hji] at hval hp
          exact Or.inl ⟨Ta, hTam, j, hj, hval, hp⟩
      refine ⟨⟨?_, ?_, ?_, ?_, ?_, ?_⟩, ?_⟩
      · exact Nat.lt_succ_of_lt hW.rootLt
      · intro p i hp
        rw [writePTE_next] at hp
        simp only at hp
        show readPTE (writePTE ⟨m.mem, m.next + 1⟩ T1 (vpnIdx1 v)
          (PageTableEntry.new m.next 1)) p i = 0
        rw [hreadB, if_neg (by intro hcon; omega)]
        exact hW.fresh p i (by omega)
      · intro i hi hval
        show PageTableEntry.ppn (readPTE (writePTE ⟨m.mem, m.next + 1⟩ T1
          (vpnIdx1 v) (PageTableEntry.new m.next 1)) root i) < m.next + 1
        rw [hreadB, if_neg (by intro hcon; exact hT1root hcon.1.symm)] at hval ⊢
        exact Nat.lt_succ_of_lt (hW.closed1 i hi hval)
      · intro T hT i hi hval
        show PageTableEntry.ppn (readPTE (writePTE ⟨m.mem, m.next + 1⟩ T1
          (vpnIdx1 v) (PageTableEntry.new m.next 1)) T i) < m.next + 1
        have hTm := (hl1B T).mp hT
        by_cases hji : T = T1 ∧ i = vpnIdx1 v
        · rw [hreadB, if_pos hji] at hval ⊢
          rw [hppn]
          omega
        · rw [hreadB, if_neg hji] at hval ⊢
          exact Nat.lt_succ_of_lt (hW.closed2 T hTm i hi hval)
      · intro hcon
        exact hW.rootNot1 ((hl1B root).mp hcon)
      · intro T hT
        rcases hl2B T hT with hTm | rfl
        · obtain ⟨hn1, hnr⟩ := hW.disj12 T hTm
          exact ⟨fun hcon => hn1 ((hl1B T).mp hcon), hnr⟩
        · constructor
          · intro hcon
            have := lvl1_lt_next m root _ hW ((hl1B _).mp hcon)
            omega
          · intro hcon
            have := hW.rootLt
            omega
      · refine ⟨T1, (hl1B T1).mpr h1, vpnIdx1 v, vpnIdx1_lt v, ?_, ?_⟩
        · rw [hreadB, if_pos ⟨rfl, rfl⟩]
          exact PageTableEntry.is_valid_new_ptr _
        · rw [hreadB, if_pos ⟨rfl, rfl⟩]

theorem WF_map (m : Mach) (root v p fl : Nat) (m2 : Mach) (hW : WF m root)
    (h : PageTable.map m root v p fl = some m2) : WF m2 root := by
  unfold PageTable.map at h
  split at h
  · exact absurd h (by simp)
  · rename_i m1 P I hfc
    split at h
    · exact absurd h (by simp)
    · rename_i hg
      simp only [Option.some.injEq] at h
      subst h
      unfold PageTable.find_pte_create at hfc
      split at hfc
      · exact absurd hfc (by simp)
      · rename_i mA p1 hs0
        split at hfc
        · exact absurd hfc (by simp)
        · rename_i mB p2 hs1
          simp only [Option.some.injEq, Prod.mk.injEq] at hfc
          obtain ⟨rfl, rfl, rfl⟩ := hfc
          obtain ⟨hWA, hlvl1⟩ := WF_createStep_root m root v mA p1 hW hs0
          obtain ⟨hWB, hlvl2⟩ := WF_createStep_lvl1 mA root v p1 mB p2 hWA hlvl1 hs1
          exact (WF_write_lvl2 mB root p2 (vpnIdx2 v) _ hWB hlvl2).1

theorem WF_map_one (m : Mach) (a : MapArea) (root v : Nat) (m1 : Mach)
    (a1 : MapArea) (hW : WF m root) (hty : a.mapType = MapType.Framed)
    (h : MapArea.map_one m a root v = some (m1, a1)) : WF m1 root := by
  obtain ⟨f, mAl, hal, hm, -⟩ := MapArea.map_one_framed m a root v m1 a1 hty h
  exact WF_map mAl root v f a.mapPerm m1 (WF_alloc m root f mAl hW hal) hm

theorem WF_mapRange (root : Nat) (vs : List Nat) :
    ∀ (m : Mach) (a : MapArea) (m' : Mach) (a' : MapArea),
    WF m root → a.mapType = MapType.Framed →
    MapArea.mapRange m root a vs = some (m', a') → WF m' root := by
  induction vs with
  | nil =>
    intro m a m' a' hW hty h
    unfold MapArea.mapRange at h
    simp only [Option.some.injEq, Prod.mk.injEq] at h
    obtain ⟨rfl, rfl⟩ := h
    exact hW
  | cons v vs ih =>
    intro m a m' a' hW hty h
    unfold MapArea.mapRange at h
    cases hone : MapArea.map_one m a root v with
    | none => rw [hone] at h; exact absurd h (by simp)
    | some p1 =>
      obtain ⟨m1, a1⟩ := p1
      rw [hone] at h
      have hty1 : a1.mapType = MapType.Framed := by
        obtain ⟨f, mAl, -, -, ha1⟩ := MapArea.map_one_framed m a root v m1 a1 hty hone
        rw [ha1]
        exact hty
      exact ih m1 a1 m' a' (WF_map_one m a root v m1 a1 hW hty hone) hty1 h

theorem unmapFirst_panic (m : Mach) (root : Nat) (areas : List MapArea) (v : Nat)
    (h : unmapFirst m root areas v = UnmapStep.panic) :
    PageTable.unmap m root v = none := by
  induction areas with
  | nil => exact absurd h (by simp [unmapFirst])
  | cons a rest ih =>
    unfold unmapFirst at h
    by_cases hl : (dfLookup a.dataFrames v).isSome = true
    · rw [if_pos hl] at h
      unfold MapArea.unmap_one at h
      cases hu : PageTable.unmap m root v with
      | none => rfl
      | some mu => rw [hu] at h; exact absurd h (by simp)
    · rw [if_neg hl] at h
      cases hrec : unmapFirst m root rest v with
      | notFound => rw [hrec] at h; exact absurd h (by simp)
      | panic => exact ih hrec
      | ok m2 rest2 => rw [hrec] at h; exact absurd h (by simp)

theorem munmapLoop_ok (vs : List Nat) :
    ∀ (m : Mach) (ms : MemorySet),
    vs.Pairwise (· < ·) →
    WF m ms.root →
    (∀ v ∈ vs, validTranslate m ms.root v = true) →
    (∀ v ∈ vs, ∀ w ∈ vs, v ≠ w →
      PageTable.find_pte m ms.root v ≠ PageTable.find_pte m ms.root w) →
    (∀ v ∈ vs, owned ms v = true) →
    ∃ m' ms', munmapLoop m ms vs = some (0, m', ms') ∧ ms'.root = ms.root ∧
      ∀ v ∈ vs, validTranslate m' ms.root v = false := by
  induction vs with
  | nil =>
    intro m ms hpw hWF hH2 hH3 hH4
    exact ⟨m, ms, rfl, rfl, by simp⟩
  | cons v vs ih =>
    intro m ms hpw hWF hH2 hH3 hH4
    have hlt : ∀ u ∈ vs, v < u := fun u hu => (List.pairwise_cons.mp hpw).1 u hu
    have hpwt := List.Pairwise.sublist (List.sublist_cons_self v vs) hpw
    obtain ⟨P, I, hfp, hval⟩ := (validTranslate_iff m ms.root v).mp
      (hH2 v (List.mem_cons_self v vs))
    have hlvl2 : lvl2 m ms.root P := find_pte_lvl2 m ms.root v P I hfp
    have hUnmap : PageTable.unmap m ms.root v = some (writePTE m P I 0) := by
      unfold PageTable.unmap
      rw [hfp]
      simp only
      rw [if_pos hval]
    cases hUF : unmapFirst m ms.root ms.areas v with
    | notFound =>
      have hnf := (unmapFirst_notFound_iff m ms.root ms.areas v).mp hUF
      have h4 := hH4 v (List.mem_cons_self v vs)
      unfold owned at h4
      rw [h4] at hnf
      exact absurd hnf (by simp)
    | panic =>
      have := unmapFirst_panic m ms.root ms.areas v hUF
      rw [hUnmap] at this
      exact absurd this (by simp)
    | ok mA areas' =>
      obtain ⟨⟨P2, I2, hfp2, hval2, rfl⟩, -, hOwnPres⟩ :=
        unmapFirst_ok m ms.root ms.areas v _ areas' hUF
      have hPI : P2 = P ∧ I2 = I := by
        rw [hfp] at hfp2
        simp only [Option.some.injEq, Prod.mk.injEq] at hfp2
        exact ⟨hfp2.1.symm, hfp2.2.symm⟩
      obtain ⟨rfl, rfl⟩ := hPI
      obtain ⟨hWF2, -, -⟩ := WF_write_lvl2 m ms.root P2 I2 0 hWF hlvl2
      have hTail2 : ∀ w ∈ vs,
          validTranslate (writePTE m P2 I2 0) ms.root w = true := by
        intro w hw
        obtain ⟨Q, J, hfq, hvq⟩ := (validTranslate_iff m ms.root w).mp
          (hH2 w (List.mem_cons_of_mem _ hw))
        have hne : ¬(Q = P2 ∧ J = I2) := by
          intro hcon
          obtain ⟨rfl, rfl⟩ := hcon
          have := hH3 v (List.mem_cons_self v vs) w (List.mem_cons_of_mem _ hw)
            (by have := hlt w hw; omega)
          rw [hfp, hfq] at this
          exact this rfl
        obtain ⟨hfq2, hvq2⟩ := find_pte_write_lvl2 m ms.root P2 I2 0 w Q J
          hWF hlvl2 hfq hne
        exact (validTranslate_iff _ ms.root w).mpr ⟨Q, J, hfq2, by rw [hvq2]; exact hvq⟩
      have hTailFp : ∀ w ∈ vs, PageTable.find_pte (writePTE m P2 I2 0) ms.root w
          = PageTable.find_pte m ms.root w := by
        intro w hw
        obtain ⟨Q, J, hfq, hvq⟩ := (validTranslate_iff m ms.root w).mp
          (hH2 w (List.mem_cons_of_mem _ hw))
        have hne : ¬(Q = P2 ∧ J = I2) := by
          intro hcon
          obtain ⟨rfl, rfl⟩ := hcon
          have := hH3 v (List.mem_cons_self v vs) w (List.mem_cons_of_mem _ hw)
            (by have := hlt w hw; omega)
          rw [hfp, hfq] at this
          exact this rfl
        obtain ⟨hfq2, -⟩ := find_pte_write_lvl2 m ms.root P2 I2 0 w Q J
          hWF hlvl2 hfq hne
        rw [hfq2, hfq]
      obtain ⟨m', ms', hloop, hroot, hfinal⟩ := ih (writePTE m P2 I2 0)
        ⟨ms.root, areas'⟩ hpwt hWF2 hTail2
        (by
          intro a ha b hb hab
          rw [hTailFp a ha, hTailFp b hb]
          exact hH3 a (List.mem_cons_of_mem _ ha) b (List.mem_cons_of_mem _ hb) hab)
        (by
          intro w hw
          show (areas'.any fun a => (dfLookup a.dataFrames w).isSome) = true
          rw [hOwnPres w (by have := hlt w hw; omega)]
          exact hH4 w (List.mem_cons_of_mem _ hw))
      refine ⟨m', ms', ?_, hroot, ?_⟩
      · unfold munmapLoop
        rw [hUF]
        exact hloop
      · intro u hu
        rcases List.mem_cons.mp hu with rfl | hu'
        · have hz0 : validTranslate (writePTE m P2 I2 0) ms.root u = false :=
            validTranslate_after_zero m ms.root u P2 I2 hfp
        -- propagate through the rest of the loop
          by_cases hcon : validTranslate m' ms.root u = true
          · have := (munmapLoop_mono vs (writePTE m P2 I2 0) ⟨ms.root, areas'⟩
              0 m' ms' hloop).2 ms.root u hcon
            rw [this] at hz0
            exact absurd hz0 (by simp)
          · rw [Bool.not_eq_true] at hcon
            exact hcon
        · exact hfinal u hu'

/-! ### Claim C4: mmap immediately followed by munmap over the same range -/

/-- C4: on a well-formed state, for every page-aligned start, valid port and
len, if mmap(start, len, port) returns 0 then munmap(start, len) over the
identical range returns 0, and afterwards every virtual page of the range no
longer translates to a valid entry. -/
theorem mmap_munmap_roundtrip (m : Mach) (ms : MemorySet) (start len port : Nat)
    (m' : Mach) (ms' : MemorySet)
    (hWF : WF m ms.root) (hal : pageOffset start = 0)
    (hp1 : port &&& 0xfffffffffffffff8 = 0) (hp2 : port &&& 0x7 ≠ 0)
    (h : MemorySet.mmap m ms start len port = some (0, m', ms')) :
    ∃ m2 ms2, MemorySet.munmap m' ms' start len = some (0, m2, ms2) ∧
      ∀ v ∈ rangeList (vaFloor start)
        (vaCeil (start + (if len < 4096 then 4096 else len))),
        validTranslate m2 ms.root v = false := by
  obtain ⟨-, -, -, -, a', hmr, hms'⟩ :=
    MemorySet.mmap_zero_parts m ms start len port m' ms' h
  obtain ⟨presA, transA, freshA, pairA, htyA, hpermA, framesA⟩ :=
    MapArea.mapRange_some ms.root _ m _ m' a' hmr rfl
  have hWF' : WF m' ms.root := WF_mapRange ms.root _ m _ m' a' hWF rfl hmr
  have hroot' : ms'.root = ms.root := by rw [hms']
  have hH2 : ∀ v ∈ rangeList (vaFloor start)
      (vaCeil (start + (if len < 4096 then 4096 else len))),
      validTranslate m' ms'.root v = true := by
    intro v hv
    obtain ⟨p, P, I, hfp, hvalEq⟩ := transA v hv
    rw [hroot']
    exact (validTranslate_iff m' ms.root v).mpr ⟨P, I, hfp,
      by rw [hvalEq]; exact PageTableEntry.is_valid_new_or_one _ _⟩
  have hH4 : ∀ v ∈ rangeList (vaFloor start)
      (vaCeil (start + (if len < 4096 then 4096 else len))),
      owned ms' v = true := by
    intro v hv
    unfold owned
    rw [hms']
    simp only [List.any_append, List.any_cons, List.any_nil, Bool.or_false]
    have : (dfLookup a'.dataFrames v).isSome = true := by
      rw [framesA v]
      refine Or.inr hv
    rw [this]
    simp
  obtain ⟨m2, ms2, hloop, hroot2, hfinal⟩ := munmapLoop_ok
    (rangeList (vaFloor start)
      (vaCeil (start + (if len < 4096 then 4096 else len)))) m' ms'
    (rangeList_pairwise _ _) (by rw [hroot']; exact hWF') hH2
    (by
      intro a ha b hb hab
      rw [hroot']
      exact pairA a ha b hb hab)
    hH4
  refine ⟨m2, ms2, ?_, ?_⟩
  · show munmapLoop m' ms' (rangeList (vaFloor start)
      (vaCeil (start + (if len < 4096 then 4096 else len)))) = some (0, m2, ms2)
    exact hloop
  · intro v hv
    have := hfinal v hv
    rw [hroot'] at this
    exact this

theorem WF_mW : WF mW msW.root := by
  have h0 : ∀ p i, readPTE mW p i = 0 := fun _ _ => rfl
  refine ⟨by decide, fun _ _ _ => rfl, ?_, ?_, ?_, ?_⟩
  · intro i hi hv
    rw [h0, PageTableEntry.is_valid_zero] at hv
    exact absurd hv (by simp)
  · rintro T ⟨j, -, hv, -⟩ i hi hval
    rw [h0, PageTableEntry.is_valid_zero] at hv
    exact absurd hv (by simp)
  · rintro ⟨j, -, hv, -⟩
    rw [h0, PageTableEntry.is_valid_zero] at hv
    exact absurd hv (by simp)
  · rintro T ⟨T1, ⟨j, -, hv, -⟩, -⟩
    rw [h0, PageTableEntry.is_valid_zero] at hv
    exact absurd hv (by simp)

/-- Witness for C4: mapping one page at 4096 then unmapping the same range
returns 0 then 0 and leaves vpn 1 untranslatable. -/
theorem mmap_munmap_roundtrip_witness :
    WF mW msW.root ∧ pageOffset 4096 = 0 ∧
    mmapCode mW msW 4096 4096 3 = some 0 ∧
    (munmapCode (mmapSt mW msW 4096 4096 3).1 (mmapSt mW msW 4096 4096 3).2
        4096 4096 = some 0 ∧
      validTranslate (munmapSt (mmapSt mW msW 4096 4096 3).1
        (mmapSt mW msW 4096 4096 3).2 4096 4096).1 msW.root 1 = false) := by
  refine ⟨WF_mW, by decide, by decide, ?_⟩
  cases hmm : MemorySet.mmap mW msW 4096 4096 3 with
  | none =>
    have hsome : (MemorySet.mmap mW msW 4096 4096 3).isSome = true := by decide
    rw [hmm] at hsome
    exact absurd hsome (by simp)
  | some res =>
    obtain ⟨r, m', ms'⟩ := res
    have hr : r = 0 := by
      have : mmapCode mW msW 4096 4096 3 = some 0 := by decide
      unfold mmapCode at this
      rw [hmm] at this
      simp only [Option.map_some', Option.some.injEq] at this
      exact this
    subst hr
    have hproj : mmapSt mW msW 4096 4096 3 = (m', ms') := by
      unfold mmapSt
      rw [hmm]
    obtain ⟨m2, ms2, hmu, hfin⟩ := mmap_munmap_roundtrip mW msW 4096 4096 3 m' ms'
      WF_mW (by decide) (by decide) (by decide) hmm
    rw [hproj]
    constructor
    · unfold munmapCode
      rw [hmu]
      rfl
    · have hproj2 : munmapSt m' ms' 4096 4096 = (m2, ms2) := by
        unfold munmapSt
        rw [hmu]
      rw [hproj2]
      exact hfin 1 (by decide)
